import Mathlib

/-!
MyContainer and its six traversal orders.

A shallow embedding of `MyContainer.hpp` (namespace `ariel`): the container with
`addElement` / `removeElement` / `size`, the shared `BaseIterator` state and the
constructors of the six iterator classes, each of which builds its own `order`
vector (the snapshot that the iterator walks).

Conventions of the embedding

* `std::vector<T>` is a `List α`; `size_t` values are natural numbers.  Every
  subtraction on `size_t` in the source stands behind a guard (`order.size() - 1 - i`
  and `temp.size() - 1` behind the emptiness test and `i < order.size()`, `right--`
  behind `left <= right` after `left++`, `middle--` and `left--` behind an even
  non-zero size and `left > 0`), where truncated subtraction on `Nat` and machine
  subtraction agree; the indices never exceed the size of the vector.  For the two
  index walks the bodies of the loops are given with the arithmetic of a 64-bit
  `size_t` as well (`sideCrossBodyWrap`, `middleOutBodyWrap`) and shown to agree
  with the bodies over the natural numbers in every round.
* The `index` of an iterator is a 64-bit `size_t`: `index++` is taken modulo `2^64`,
  so the increment of an iterator at `2^64 - 1` gives index 0.  The size of a
  vector is a `size_t` too; where a statement needs it, the bound is the
  hypothesis that the size is below `2^64`.
* An iterator is a value: copying it (`BaseIterator temp = *this`) copies `order`
  and `index`, and its `order` is a vector of its own, not a view of the container.
* A thrown exception is a value of `Exception`; a member function that mutates
  the container and may throw returns the outcome together with the container as
  the call leaves it.
* The address of a container (`&container`, which the iterators keep as their
  identity token) is the field `addr`.
* An indexed read `v[i]` is `v[i]?`; a read outside the vector (undefined
  behaviour in the source) has no effect in the embedding.
-/

namespace ariel

/-- The exceptions thrown by the container and by its iterators. -/
inductive Exception where
  | invalid_argument
  | out_of_range
  deriving DecidableEq, Repr

/-- The class `MyContainer<T>`: the vector `elements`, and the address of the object. -/
structure MyContainer (α : Type) where
  addr : Nat
  elements : List α
  deriving DecidableEq, Repr

/-- The state shared by all iterators (`BaseIterator`): the container referred to
(by address), the traversal order built by the constructor, and the current index. -/
structure BaseIterator (α : Type) where
  container : Nat
  order : List α
  index : Nat
  deriving DecidableEq, Repr

section Container

variable {α : Type}

/-- The member `addElement`: `elements.push_back(val)`. -/
def MyContainer.addElement (c : MyContainer α) (val : α) : MyContainer α :=
  { c with elements := c.elements ++ [val] }

/-- The member `size`: `elements.size()`. -/
def MyContainer.size (c : MyContainer α) : Nat :=
  c.elements.length

/-- The erase-remove idiom `v.erase(std::remove(v.begin(), v.end(), val), v.end())`:
`std::remove` moves the elements that do not compare equal to `val` to the front,
keeping their relative order, and `erase` cuts the rest off. -/
def eraseRemove [DecidableEq α] (val : α) : List α → List α
  | [] => []
  | x :: xs => if x = val then eraseRemove val xs else x :: eraseRemove val xs

/-- The member `removeElement`: the vector is rewritten first, and `std::invalid_argument` is
thrown afterwards when its size did not change.  The second component is the
container as the call leaves it, whether it returns or throws. -/
def MyContainer.removeElement [DecidableEq α] (c : MyContainer α) (val : α) :
    Except Exception Unit × MyContainer α :=
  let original_size := c.elements.length
  let c1 : MyContainer α := { c with elements := eraseRemove val c.elements }
  if c1.elements.length = original_size then
    (Except.error Exception.invalid_argument, c1)
  else
    (Except.ok (), c1)

end Container

section Orders

variable {α : Type}

/-- The statement `order.push_back(temp[i])`. -/
def pushAt (order temp : List α) (i : Nat) : List α :=
  match temp[i]? with
  | some x => order ++ [x]
  | none => order

/-- The body of the inner loop of both bubble sorts:
`if (order[j] ⋈ order[j + 1]) std::swap(order[j], order[j + 1])`, the comparison
`⋈` being `>` in `AscendingIterator` and `<` in `DescendingIterator`. -/
def bubbleStep (swapWhen : α → α → Bool) (order : List α) (j : Nat) : List α :=
  match order[j]?, order[j + 1]? with
  | some a, some b => if swapWhen a b then (order.set j b).set (j + 1) a else order
  | _, _ => order

/-- The inner loop `for (j = 0; j < order.size() - 1 - i; j++)`. -/
def bubblePass (swapWhen : α → α → Bool) (order : List α) (i : Nat) : List α :=
  (List.range (order.length - 1 - i)).foldl (bubbleStep swapWhen) order

/-- The outer loop `for (i = 0; i < order.size(); i++)`; a swap never changes
`order.size()`, so the bound is the size on entry. -/
def bubbleSort (swapWhen : α → α → Bool) (order : List α) : List α :=
  (List.range order.length).foldl (bubblePass swapWhen) order

/-- The constructor `AscendingIterator(contain, end)`: `order` starts as a copy of
the elements and is bubble-sorted with the test `order[j] > order[j + 1]`. -/
def AscendingIterator [LT α] [DecidableRel (fun a b : α => a < b)]
    (contain : MyContainer α) (isEnd : Bool) : BaseIterator α :=
  let base : BaseIterator α := ⟨contain.addr, contain.elements, 0⟩
  if contain.elements.isEmpty then
    if isEnd then { base with index := 0 } else base
  else
    let sorted := bubbleSort (fun a b => decide (a > b)) base.order
    if isEnd then { base with order := sorted, index := sorted.length }
    else { base with order := sorted }

/-- The constructor `DescendingIterator(contain, end)`: the same loops with the
test `order[j] < order[j + 1]`. -/
def DescendingIterator [LT α] [DecidableRel (fun a b : α => a < b)]
    (contain : MyContainer α) (isEnd : Bool) : BaseIterator α :=
  let base : BaseIterator α := ⟨contain.addr, contain.elements, 0⟩
  if contain.elements.isEmpty then
    if isEnd then { base with index := 0 } else base
  else
    let sorted := bubbleSort (fun a b => decide (a < b)) base.order
    if isEnd then { base with order := sorted, index := sorted.length }
    else { base with order := sorted }

/-- The local variables of the two index-walking constructors: the indices
`left` and `right` into `temp`, and the `order` vector built so far. -/
structure LoopState (α : Type) where
  left : Nat
  right : Nat
  order : List α
  deriving DecidableEq, Repr

/-- The call `std::sort(temp.begin(), temp.end())` on a totally ordered element type: the
rearrangement of `temp` into non-decreasing order. -/
def stdSort [LinearOrder α] (temp : List α) : List α :=
  temp.insertionSort (fun a b => a ≤ b)

/-- The body of the `while` loop of `SideCrossIterator`:
`order.push_back(temp[left]); left++;
 if (left <= right) { order.push_back(temp[right]); right--; }`. -/
def sideCrossBody (temp : List α) (s : LoopState α) : LoopState α :=
  let s1 : LoopState α := { s with order := pushAt s.order temp s.left, left := s.left + 1 }
  if s1.left ≤ s1.right then
    { s1 with order := pushAt s1.order temp s1.right, right := s1.right - 1 }
  else s1

/-- The loop `while (left <= right) { ... }` of `SideCrossIterator`; the value is
`order` when the loop is left. -/
def sideCrossLoop (temp : List α) (s : LoopState α) : List α :=
  if s.left ≤ s.right then sideCrossLoop temp (sideCrossBody temp s) else s.order
termination_by s.right + 1 - s.left
decreasing_by
  simp only [sideCrossBody]
  split <;> simp_all <;> omega

/-- The constructor `SideCrossIterator(contain, end)`. -/
def SideCrossIterator [LinearOrder α] (contain : MyContainer α) (isEnd : Bool) :
    BaseIterator α :=
  let base : BaseIterator α := ⟨contain.addr, [], 0⟩
  if contain.elements.isEmpty then
    if isEnd then { base with index := 0 } else base
  else
    let temp := stdSort contain.elements
    let order := sideCrossLoop temp ⟨0, temp.length - 1, base.order⟩
    if isEnd then { base with order := order, index := order.length }
    else { base with order := order }

/-- The constructor `ReverseOrder(contain, end)`: the loop from `temp.rbegin()` to
`temp.rend()`, whose `k`-th round reads `temp[temp.size() - 1 - k]`. -/
def ReverseOrder (contain : MyContainer α) (isEnd : Bool) : BaseIterator α :=
  let base : BaseIterator α := ⟨contain.addr, [], 0⟩
  if contain.elements.isEmpty then
    if isEnd then { base with index := 0 } else base
  else
    let temp := contain.elements
    let order := (List.range temp.length).foldl
      (fun order k => pushAt order temp (temp.length - 1 - k)) base.order
    if isEnd then { base with order := order, index := order.length }
    else { base with order := order }

/-- The constructor `Order(contain, end)`. -/
def Order (contain : MyContainer α) (isEnd : Bool) : BaseIterator α :=
  let base : BaseIterator α := ⟨contain.addr, contain.elements, 0⟩
  if isEnd then { base with index := base.order.length } else base

/-- The body of the `while` loop of `MiddleOutOrder`:
`if (left > 0) { left--; order.push_back(temp[left]); }
 if (right < temp.size()) { order.push_back(temp[right]); right++; }`. -/
def middleOutBody (temp : List α) (s : LoopState α) : LoopState α :=
  let s1 : LoopState α :=
    if s.left > 0 then { s with left := s.left - 1, order := pushAt s.order temp (s.left - 1) }
    else s
  if s1.right < temp.length then
    { s1 with order := pushAt s1.order temp s1.right, right := s1.right + 1 }
  else s1

/-- The loop `while (left > 0 || right < temp.size()) { ... }` of `MiddleOutOrder`;
the value is `order` when the loop is left. -/
def middleOutLoop (temp : List α) (s : LoopState α) : List α :=
  if s.left > 0 ∨ s.right < temp.length then middleOutLoop temp (middleOutBody temp s)
  else s.order
termination_by s.left + (temp.length - s.right)
decreasing_by
  simp only [middleOutBody]
  split <;> split <;> simp_all <;> omega

/-- The constructor `MiddleOutOrder(contain, end)`; the second emptiness test of
the source (`temp.size() == 0`) is kept although the first one covers it. -/
def MiddleOutOrder (contain : MyContainer α) (isEnd : Bool) : BaseIterator α :=
  let base : BaseIterator α := ⟨contain.addr, [], 0⟩
  let temp := contain.elements
  if temp.isEmpty then
    if isEnd then { base with index := 0 } else base
  else if temp.length = 0 then base
  else
    let middle := temp.length / 2
    let middle := if temp.length % 2 = 0 then middle - 1 else middle
    let order := pushAt base.order temp middle
    let order := middleOutLoop temp ⟨middle, middle + 1, order⟩
    if isEnd then { base with order := order, index := order.length }
    else { base with order := order }

/-- The states in which the body of the `while` loop of `SideCrossIterator` is
entered, in order, when the loop is started in state `s`. -/
def sideCrossTrace (temp : List α) (s : LoopState α) : List (LoopState α) :=
  if s.left ≤ s.right then s :: sideCrossTrace temp (sideCrossBody temp s) else []
termination_by s.right + 1 - s.left
decreasing_by
  simp only [sideCrossBody]
  split <;> simp_all <;> omega

/-- The body of the loop of `SideCrossIterator` with the arithmetic of a 64-bit
`size_t`: `left++` and `right--` are taken modulo `2^64`. -/
def sideCrossBodyWrap (temp : List α) (s : LoopState α) : LoopState α :=
  let s1 : LoopState α :=
    { s with order := pushAt s.order temp s.left, left := (s.left + 1) % 2 ^ 64 }
  if s1.left ≤ s1.right then
    { s1 with order := pushAt s1.order temp s1.right,
              right := (s1.right + (2 ^ 64 - 1)) % 2 ^ 64 }
  else s1

/-- The states in which the body of the `while` loop of `MiddleOutOrder` is entered,
in order, when the loop is started in state `s`. -/
def middleOutTrace (temp : List α) (s : LoopState α) : List (LoopState α) :=
  if s.left > 0 ∨ s.right < temp.length then s :: middleOutTrace temp (middleOutBody temp s)
  else []
termination_by s.left + (temp.length - s.right)
decreasing_by
  simp only [middleOutBody]
  split <;> split <;> simp_all <;> omega

/-- The body of the loop of `MiddleOutOrder` with the arithmetic of a 64-bit
`size_t`: `left--` and `right++` are taken modulo `2^64`. -/
def middleOutBodyWrap (temp : List α) (s : LoopState α) : LoopState α :=
  let s1 : LoopState α :=
    if s.left > 0 then
      { s with left := (s.left + (2 ^ 64 - 1)) % 2 ^ 64,
               order := pushAt s.order temp ((s.left + (2 ^ 64 - 1)) % 2 ^ 64) }
    else s
  if s1.right < temp.length then
    { s1 with order := pushAt s1.order temp s1.right, right := (s1.right + 1) % 2 ^ 64 }
  else s1

end Orders

section Cursor

variable {α : Type}

/-- The operator `operator*` of `BaseIterator`: `std::out_of_range` when
`index >= order.size()`, and `order.at(index)` otherwise (`at` itself throws
`std::out_of_range` on an index outside the vector). -/
def BaseIterator.dereference (it : BaseIterator α) : Except Exception α :=
  if it.index ≥ it.order.length then Except.error Exception.out_of_range
  else
    match it.order[it.index]? with
    | some x => Except.ok x
    | none => Except.error Exception.out_of_range

/-- The pre-increment `operator++()`: `index++` on the 64-bit `size_t index`, which
wraps from `2^64 - 1` to 0; the value is the iterator itself after the increment. -/
def BaseIterator.preIncrement (it : BaseIterator α) : BaseIterator α :=
  { it with index := (it.index + 1) % 2 ^ 64 }

/-- The post-increment `operator++(int)`: `temp = *this; ++(*this); return temp;`.
The first component is the returned copy, the second the iterator afterwards. -/
def BaseIterator.postIncrement (it : BaseIterator α) : BaseIterator α × BaseIterator α :=
  let temp := it
  (temp, it.preIncrement)

/-- The operator `operator==` of `BaseIterator`: `index == other.index`. -/
def BaseIterator.equals (it other : BaseIterator α) : Bool :=
  it.index == other.index

/-- The operator `operator!=` of `BaseIterator`: `std::invalid_argument` when the two
iterators refer to containers at different addresses, `index != other.index`
otherwise. -/
def BaseIterator.notEquals (it other : BaseIterator α) : Except Exception Bool :=
  if it.container ≠ other.container then Except.error Exception.invalid_argument
  else Except.ok (it.index != other.index)

/-- The member `begin_ascending_order`. -/
def MyContainer.begin_ascending_order [LinearOrder α] (c : MyContainer α) : BaseIterator α :=
  AscendingIterator c false

/-- The member `end_ascending_order`. -/
def MyContainer.end_ascending_order [LinearOrder α] (c : MyContainer α) : BaseIterator α :=
  AscendingIterator c true

/-- The member `begin_descending_order`. -/
def MyContainer.begin_descending_order [LinearOrder α] (c : MyContainer α) : BaseIterator α :=
  DescendingIterator c false

/-- The member `end_descending_order`. -/
def MyContainer.end_descending_order [LinearOrder α] (c : MyContainer α) : BaseIterator α :=
  DescendingIterator c true

/-- The member `begin_side_cross_order`. -/
def MyContainer.begin_side_cross_order [LinearOrder α] (c : MyContainer α) : BaseIterator α :=
  SideCrossIterator c false

/-- The member `end_side_cross_order`. -/
def MyContainer.end_side_cross_order [LinearOrder α] (c : MyContainer α) : BaseIterator α :=
  SideCrossIterator c true

/-- The member `begin_reverse_order`. -/
def MyContainer.begin_reverse_order (c : MyContainer α) : BaseIterator α :=
  ReverseOrder c false

/-- The member `end_reverse_order`. -/
def MyContainer.end_reverse_order (c : MyContainer α) : BaseIterator α :=
  ReverseOrder c true

/-- The member `begin_order`. -/
def MyContainer.begin_order (c : MyContainer α) : BaseIterator α :=
  Order c false

/-- The member `end_order`. -/
def MyContainer.end_order (c : MyContainer α) : BaseIterator α :=
  Order c true

/-- The member `begin_middle_out_order`. -/
def MyContainer.begin_middle_out_order (c : MyContainer α) : BaseIterator α :=
  MiddleOutOrder c false

/-- The member `end_middle_out_order`. -/
def MyContainer.end_middle_out_order (c : MyContainer α) : BaseIterator α :=
  MiddleOutOrder c true

/-- The six ordering kinds, one for each pair of `begin_..._order` / `end_..._order`. -/
inductive OrderKind where
  | ascending
  | descending
  | sideCross
  | reverse
  | insertion
  | middleOut
  deriving DecidableEq, Repr

/-- The `begin_..._order` member of the given kind. -/
def MyContainer.cursorBegin [LinearOrder α] (c : MyContainer α) : OrderKind → BaseIterator α
  | OrderKind.ascending => c.begin_ascending_order
  | OrderKind.descending => c.begin_descending_order
  | OrderKind.sideCross => c.begin_side_cross_order
  | OrderKind.reverse => c.begin_reverse_order
  | OrderKind.insertion => c.begin_order
  | OrderKind.middleOut => c.begin_middle_out_order

/-- The `end_..._order` member of the given kind. -/
def MyContainer.cursorEnd [LinearOrder α] (c : MyContainer α) : OrderKind → BaseIterator α
  | OrderKind.ascending => c.end_ascending_order
  | OrderKind.descending => c.end_descending_order
  | OrderKind.sideCross => c.end_side_cross_order
  | OrderKind.reverse => c.end_reverse_order
  | OrderKind.insertion => c.end_order
  | OrderKind.middleOut => c.end_middle_out_order

/-- The loop of the callers (`test.cpp`, `main.cpp`),
`for (auto it = c.begin_k(); it != c.end_k(); ++it) result.push_back(*it);`,
started at `it` with `result` collected so far and `rounds` rounds done.  The
container is not touched by the loop, so `c.end_k()` is the same iterator `last` in
every test.  The loop ends with the exception thrown by `!=` or by `*`, or with the
collected vector and the number of rounds; `none` means that `fuel` tests were not
enough to leave it. -/
def traverse (last : BaseIterator α) :
    Nat → BaseIterator α → List α → Nat → Option (Except Exception (List α × Nat))
  | 0, _, _, _ => none
  | fuel + 1, it, result, rounds =>
    match it.notEquals last with
    | Except.error e => some (Except.error e)
    | Except.ok false => some (Except.ok (result, rounds))
    | Except.ok true =>
      match it.dereference with
      | Except.error e => some (Except.error e)
      | Except.ok x => traverse last fuel it.preIncrement (result ++ [x]) (rounds + 1)

/-- The friend `operator<<`: every element is written to the stream, followed by one
blank.  The stream is the text written so far; `fmt` is the text that `os << x`
writes for an element `x` (it belongs to the element type, not to the container). -/
def MyContainer.print (fmt : α → String) (os : String) (container : MyContainer α) : String :=
  container.elements.foldl (fun os x => os ++ fmt x ++ " ") os

/-- The text of a container: what `operator<<` writes to an empty stream
(`std::ostringstream out; out << c; out.str()`). -/
def MyContainer.render (fmt : α → String) (c : MyContainer α) : String :=
  c.print fmt ""

/-- The text of a sequence in the words of the specification: the textual form of
each element followed by one space, concatenated. -/
def renderSpec (fmt : α → String) : List α → String
  | [] => ""
  | x :: xs => fmt x ++ " " ++ renderSpec fmt xs

/-- A mutating call on a container: `addElement(val)` or `removeElement(val)`. -/
inductive Mutation (α : Type) where
  | addElement (val : α)
  | removeElement (val : α)
  deriving DecidableEq, Repr

/-- The container after one mutating call (for `removeElement`, whether it returns
or throws). -/
def MyContainer.mutate [DecidableEq α] (c : MyContainer α) : Mutation α → MyContainer α
  | Mutation.addElement val => c.addElement val
  | Mutation.removeElement val => (c.removeElement val).2

/-- A container together with an iterator object that was created from it earlier.
The iterator owns its `order` (the constructor of `BaseIterator` takes the vector
by value and moves it into `order`) and its `index`; of the container it keeps a
reference only. -/
structure Scene (α : Type) where
  container : MyContainer α
  cursor : BaseIterator α
  deriving DecidableEq, Repr

/-- A mutating call on the container of a scene: `addElement` and `removeElement`
write `elements` of the container and nothing else. -/
def Scene.mutate [DecidableEq α] (s : Scene α) (m : Mutation α) : Scene α :=
  { s with container := s.container.mutate m }

/-- A sequence of mutating calls on the container of a scene, in order. -/
def Scene.run [DecidableEq α] (s : Scene α) (ms : List (Mutation α)) : Scene α :=
  ms.foldl Scene.mutate s

/-- A sequence of increments of an iterator, in order; `true` stands for the
post-increment `it++` (whose returned copy is dropped), `false` for `++it`. -/
def BaseIterator.advance (it : BaseIterator α) : List Bool → BaseIterator α
  | [] => it
  | true :: rest => BaseIterator.advance it.postIncrement.2 rest
  | false :: rest => BaseIterator.advance it.preIncrement rest

/-- The values passed to `addElement` in a sequence of mutating calls, in order. -/
def appended : List (Mutation α) → List α
  | [] => []
  | Mutation.addElement val :: rest => val :: appended rest
  | Mutation.removeElement _ :: rest => appended rest

end Cursor

/-! ## The bubble sort -/

section BubbleSort

variable {α : Type}

theorem bubbleStep_nil (sw : α → α → Bool) (j : Nat) : bubbleStep sw [] j = [] := by
  simp [bubbleStep]

theorem bubbleStep_singleton (sw : α → α → Bool) (a : α) (j : Nat) :
    bubbleStep sw [a] j = [a] := by
  cases j <;> simp [bubbleStep]

theorem bubbleStep_zero (sw : α → α → Bool) (a b : α) (t : List α) :
    bubbleStep sw (a :: b :: t) 0 = if sw a b then b :: a :: t else a :: b :: t := by
  simp [bubbleStep]

theorem bubbleStep_cons_succ (sw : α → α → Bool) (x : α) (l : List α) (j : Nat) :
    bubbleStep sw (x :: l) (j + 1) = x :: bubbleStep sw l j := by
  simp only [bubbleStep, List.getElem?_cons_succ]
  cases h1 : l[j]? <;> cases h2 : l[j + 1]? <;> simp
  split <;> simp

theorem foldl_bubbleStep_map_succ (sw : α → α → Bool) (x : α) (js : List Nat) :
    ∀ l : List α, (js.map Nat.succ).foldl (bubbleStep sw) (x :: l)
      = x :: js.foldl (bubbleStep sw) l := by
  induction js with
  | nil => intro l; rfl
  | cons j js ih =>
    intro l
    simp only [List.map_cons, List.foldl_cons, Nat.succ_eq_add_one, bubbleStep_cons_succ]
    exact ih _

/-- The inner loop on a vector of two or more elements: after the comparison at
index 0 the smaller-ranked element stays in front and the loop goes on in the tail. -/
theorem foldl_bubbleStep_cons_cons (sw : α → α → Bool) (a b : α) (t : List α) (k : Nat) :
    (List.range (k + 1)).foldl (bubbleStep sw) (a :: b :: t)
      = if sw a b then b :: (List.range k).foldl (bubbleStep sw) (a :: t)
        else a :: (List.range k).foldl (bubbleStep sw) (b :: t) := by
  rw [List.range_succ_eq_map, List.foldl_cons, bubbleStep_zero]
  split <;> exact foldl_bubbleStep_map_succ sw _ _ _

theorem foldl_bubbleStep_nil (sw : α → α → Bool) (js : List Nat) :
    js.foldl (bubbleStep sw) [] = [] := by
  induction js with
  | nil => rfl
  | cons j js ih => simpa [bubbleStep_nil] using ih

theorem foldl_bubbleStep_singleton (sw : α → α → Bool) (a : α) (js : List Nat) :
    js.foldl (bubbleStep sw) [a] = [a] := by
  induction js with
  | nil => rfl
  | cons j js ih => simpa [bubbleStep_singleton] using ih

theorem foldl_bubbleStep_perm (sw : α → α → Bool) (k : Nat) :
    ∀ l : List α, ((List.range k).foldl (bubbleStep sw) l).Perm l := by
  induction k with
  | zero => intro l; simp
  | succ k ih =>
    intro l
    match l with
    | [] => rw [foldl_bubbleStep_nil]
    | [a] => rw [foldl_bubbleStep_singleton]
    | a :: b :: t =>
      rw [foldl_bubbleStep_cons_cons]
      split
      · exact ((ih (a :: t)).cons b).trans (List.Perm.swap a b t)
      · exact (ih (b :: t)).cons a

/-- The inner loop with bound `k` below the length of `pre` leaves a suffix alone. -/
theorem foldl_bubbleStep_append (sw : α → α → Bool) (suf : List α) (k : Nat) :
    ∀ pre : List α, k < pre.length →
      (List.range k).foldl (bubbleStep sw) (pre ++ suf)
        = (List.range k).foldl (bubbleStep sw) pre ++ suf := by
  induction k with
  | zero => intro pre _; simp
  | succ k ih =>
    intro pre hk
    match pre, hk with
    | [a], hk => simp at hk
    | a :: b :: t, hk =>
      simp only [List.length_cons] at hk
      simp only [List.cons_append]
      rw [foldl_bubbleStep_cons_cons, foldl_bubbleStep_cons_cons]
      split
      · have := ih (a :: t) (by simp; omega)
        simp only [List.cons_append] at this
        rw [this, List.cons_append]
      · have := ih (b :: t) (by simp; omega)
        simp only [List.cons_append] at this
        rw [this, List.cons_append]

/-- One full inner loop carries an `R`-greatest element to the last position. -/
theorem foldl_bubbleStep_last (sw : α → α → Bool) (R : α → α → Prop)
    (hfalse : ∀ a b, sw a b = false → R a b) (htrue : ∀ a b, sw a b = true → R b a)
    (htrans : ∀ a b c, R a b → R b c → R a c) (t : List α) :
    ∀ a : α, ∃ front m, (List.range t.length).foldl (bubbleStep sw) (a :: t) = front ++ [m]
      ∧ ∀ x ∈ front, R x m := by
  induction t with
  | nil => intro a; exact ⟨[], a, by simp, by simp⟩
  | cons b t ih =>
    intro a
    have key : ∀ x y : α, R x y →
        ∃ front m, x :: (List.range t.length).foldl (bubbleStep sw) (y :: t) = front ++ [m]
          ∧ ∀ z ∈ front, R z m := by
      intro x y hxy
      obtain ⟨front, m, hfm, hR⟩ := ih y
      refine ⟨x :: front, m, by rw [hfm]; rfl, ?_⟩
      intro z hz
      rcases List.mem_cons.mp hz with rfl | hz
      · have hy : y ∈ front ++ [m] := by
          rw [← hfm]
          exact (foldl_bubbleStep_perm sw t.length (y :: t)).mem_iff.mpr (List.mem_cons_self _ _)
        rcases List.mem_append.mp hy with hy | hy
        · exact htrans _ _ _ hxy (hR y hy)
        · rw [List.mem_singleton] at hy
          exact hy ▸ hxy
      · exact hR z hz
    rw [List.length_cons, foldl_bubbleStep_cons_cons]
    cases h : sw a b
    · simpa using key a b (hfalse a b h)
    · simpa using key b a (htrue a b h)

/-- The invariant of the outer loop: after `i` rounds the vector is `pre ++ suf`
with `suf` of length `i`, sorted, and above every element of `pre`. -/
theorem foldl_bubblePass_inv (sw : α → α → Bool) (R : α → α → Prop)
    (hfalse : ∀ a b, sw a b = false → R a b) (htrue : ∀ a b, sw a b = true → R b a)
    (htrans : ∀ a b c, R a b → R b c → R a c) (l : List α) (i : Nat) (hi : i ≤ l.length) :
    ∃ pre suf, (List.range i).foldl (bubblePass sw) l = pre ++ suf ∧ suf.length = i
      ∧ suf.Pairwise R ∧ (∀ x ∈ pre, ∀ y ∈ suf, R x y) ∧ (pre ++ suf).Perm l := by
  induction i with
  | zero => exact ⟨l, [], by simp, rfl, List.Pairwise.nil, by simp, by simp⟩
  | succ i ih =>
    obtain ⟨pre, suf, hfold, hlen, hsorted, hle, hperm⟩ := ih (by omega)
    have hlen2 : pre.length + suf.length = l.length := by
      rw [← List.length_append]; exact hperm.length_eq
    match pre, hfold, hle, hperm, hlen2 with
    | [], _, _, _, hlen2 => simp at hlen2; omega
    | a :: t, hfold, hle, hperm, hlen2 =>
      obtain ⟨front, m, hfm, hR⟩ := foldl_bubbleStep_last sw R hfalse htrue htrans t a
      have hbound : ((a :: t) ++ suf).length - 1 - i = t.length := by
        simp only [List.length_append, List.length_cons] at hlen2 ⊢; omega
      have hp : (front ++ [m]).Perm (a :: t) := by
        rw [← hfm]; exact foldl_bubbleStep_perm sw _ _
      have hm : m ∈ a :: t := hp.mem_iff.mp (by simp)
      refine ⟨front, m :: suf, ?_, by simp [hlen], ?_, ?_, ?_⟩
      · rw [List.range_succ, List.foldl_append, hfold]
        simp only [List.foldl_cons, List.foldl_nil, bubblePass]
        rw [hbound, foldl_bubbleStep_append sw suf t.length (a :: t) (by simp), hfm]
        simp
      · exact List.pairwise_cons.mpr ⟨fun y hy => hle m hm y hy, hsorted⟩
      · intro x hx y hy
        rcases List.mem_cons.mp hy with rfl | hy
        · exact hR x hx
        · exact hle x (hp.mem_iff.mp (List.mem_append_left _ hx)) y hy
      · have h1 : (front ++ m :: suf).Perm ((front ++ [m]) ++ suf) := by simp
        exact h1.trans ((hp.append_right suf).trans hperm)

/-- The two loops sort: the result is ordered by `R` and is a permutation. -/
theorem bubbleSort_sorted_perm (sw : α → α → Bool) (R : α → α → Prop)
    (hfalse : ∀ a b, sw a b = false → R a b) (htrue : ∀ a b, sw a b = true → R b a)
    (htrans : ∀ a b c, R a b → R b c → R a c) (l : List α) :
    (bubbleSort sw l).Pairwise R ∧ (bubbleSort sw l).Perm l := by
  obtain ⟨pre, suf, hfold, hlen, hsorted, -, hperm⟩ :=
    foldl_bubblePass_inv sw R hfalse htrue htrans l l.length (Nat.le_refl _)
  have hpre : pre = [] := by
    have := hperm.length_eq
    simp only [List.length_append] at this
    exact List.length_eq_zero.mp (by omega)
  subst hpre
  simp only [List.nil_append] at hfold hperm
  unfold bubbleSort
  rw [hfold]
  exact ⟨hsorted, hperm⟩

end BubbleSort

section Walks

variable {α : Type}

/-- Taking elements alternately from two lists, the first list first; when one
list is used up the rest of the other follows. -/
def alternate : List α → List α → List α
  | [], ys => ys
  | x :: xs, [] => x :: xs
  | x :: xs, y :: ys => x :: y :: alternate xs ys

theorem pushAt_of_getElem? {order temp : List α} {i : Nat} {x : α} (h : temp[i]? = some x) :
    pushAt order temp i = order ++ [x] := by
  simp [pushAt, h]

theorem getElem?_append_cons_of_eq (A B : List α) (x : α) (i : Nat) (h : i = A.length) :
    (A ++ x :: B)[i]? = some x := by
  subst h
  rw [List.getElem?_append_right (Nat.le_refl _), Nat.sub_self]
  simp

theorem middleOutLoop_nil_left (R : List α) :
    ∀ (M order : List α),
      middleOutLoop (M ++ R) ⟨0, M.length, order⟩ = order ++ R := by
  induction R with
  | nil =>
    intro M order
    rw [middleOutLoop]; simp
  | cons y R ih =>
    intro M order
    have hy := getElem?_append_cons_of_eq M R y M.length rfl
    rw [middleOutLoop]
    have hb : middleOutBody (M ++ y :: R) ⟨0, M.length, order⟩
        = ⟨0, (M ++ [y]).length, order ++ [y]⟩ := by
      simp [middleOutBody, pushAt_of_getElem? hy]
    rw [hb]
    have := ih (M ++ [y]) (order ++ [y])
    simp only [List.append_assoc, List.singleton_append] at this
    rw [if_pos (by simp), this]

/-- The loop of `MiddleOutOrder`, started with `L` (read backwards) to the left of
`left` and `R` from `right` on, appends `L` and `R` alternately. -/
theorem middleOutLoop_eq (L : List α) :
    ∀ (R M order : List α),
      middleOutLoop (L.reverse ++ M ++ R) ⟨L.length, L.length + M.length, order⟩
        = order ++ alternate L R := by
  induction L with
  | nil =>
    intro R M order
    have := middleOutLoop_nil_left R M order
    cases R <;> simpa [alternate] using this
  | cons x L ih =>
    intro R M order
    match R with
    | [] =>
      have htemp : (x :: L).reverse ++ M ++ [] = L.reverse ++ (x :: M) ++ [] := by simp
      rw [htemp, middleOutLoop]
      have hb : middleOutBody (L.reverse ++ (x :: M) ++ [])
          ⟨(x :: L).length, (x :: L).length + M.length, order⟩
          = ⟨L.length, L.length + (x :: M).length, order ++ [x]⟩ := by
        have h1 := getElem?_append_cons_of_eq L.reverse M x L.length (by simp)
        simp only [middleOutBody, List.length_cons, List.append_nil]
        simp [pushAt_of_getElem? h1, Nat.add_assoc, Nat.add_comm 1]
      rw [hb, if_pos (by simp), ih [] (x :: M) (order ++ [x])]
      cases L <;> simp [alternate]
    | y :: R =>
      have htemp : (x :: L).reverse ++ M ++ (y :: R) = L.reverse ++ (x :: (M ++ [y])) ++ R := by
        simp
      rw [htemp, middleOutLoop]
      have hb : middleOutBody (L.reverse ++ (x :: (M ++ [y])) ++ R)
          ⟨(x :: L).length, (x :: L).length + M.length, order⟩
          = ⟨L.length, L.length + (x :: (M ++ [y])).length, order ++ [x] ++ [y]⟩ := by
        have h1 : (L.reverse ++ x :: (M ++ y :: R))[L.length]? = some x :=
          getElem?_append_cons_of_eq L.reverse (M ++ y :: R) x L.length (by simp)
        have h2 : (L.reverse ++ x :: (M ++ y :: R))[L.length + (M.length + 1)]? = some y := by
          have := getElem?_append_cons_of_eq (L.reverse ++ x :: M) R y
            (L.length + (M.length + 1)) (by simp)
          simpa using this
        simp only [middleOutBody, List.length_cons]
        simp [pushAt_of_getElem? h1, pushAt_of_getElem? h2, Nat.add_assoc, Nat.add_comm 1]
      rw [hb, if_pos (by simp), ih R (x :: (M ++ [y])) (order ++ [x] ++ [y])]
      simp [alternate]

theorem length_alternate (xs : List α) :
    ∀ ys : List α, (alternate xs ys).length = xs.length + ys.length := by
  induction xs with
  | nil => intro ys; simp [alternate]
  | cons x xs ih =>
    intro ys
    cases ys with
    | nil => simp [alternate]
    | cons y ys => simp [alternate, ih ys]; omega

theorem alternate_perm (xs : List α) :
    ∀ ys : List α, (alternate xs ys).Perm (xs ++ ys) := by
  induction xs with
  | nil => intro ys; simp [alternate]
  | cons x xs ih =>
    intro ys
    cases ys with
    | nil => simp [alternate]
    | cons y ys =>
      simp only [alternate, List.cons_append]
      exact ((ih ys).cons y).cons x |>.trans
        (List.Perm.cons x (List.perm_middle.symm))

theorem alternate_getElem?_even (xs : List α) :
    ∀ (ys : List α) (k : Nat), k < xs.length → k ≤ ys.length →
      (alternate xs ys)[2 * k]? = xs[k]? := by
  induction xs with
  | nil => intro ys k h; simp at h
  | cons x xs ih =>
    intro ys k hx hy
    cases ys with
    | nil =>
      have : k = 0 := by simpa using hy
      subst this; simp [alternate]
    | cons y ys =>
      cases k with
      | zero => simp [alternate]
      | succ k =>
        have h2 : 2 * (k + 1) = 2 * k + 1 + 1 := by omega
        simp only [alternate, h2, List.getElem?_cons_succ]
        exact ih ys k (by simpa using hx) (by simpa using hy)

theorem alternate_getElem?_odd (xs : List α) :
    ∀ (ys : List α) (k : Nat), k < xs.length → k < ys.length →
      (alternate xs ys)[2 * k + 1]? = ys[k]? := by
  induction xs with
  | nil => intro ys k h; simp at h
  | cons x xs ih =>
    intro ys k hx hy
    cases ys with
    | nil => simp at hy
    | cons y ys =>
      cases k with
      | zero => simp [alternate]
      | succ k =>
        have h2 : 2 * (k + 1) + 1 = (2 * k + 1) + 1 + 1 := by omega
        simp only [alternate, h2, List.getElem?_cons_succ]
        exact ih ys k (by simpa using hx) (by simpa using hy)

theorem alternate_getElem?_right (xs : List α) :
    ∀ (ys : List α) (j : Nat), xs.length ≤ ys.length → 2 * xs.length ≤ j →
      (alternate xs ys)[j]? = ys[j - xs.length]? := by
  induction xs with
  | nil => intro ys j _ _; simp [alternate]
  | cons x xs ih =>
    intro ys j hxy hj
    cases ys with
    | nil => simp at hxy
    | cons y ys =>
      simp only [List.length_cons] at hxy hj
      obtain ⟨i, rfl⟩ : ∃ i, j = i + 1 + 1 := ⟨j - 2, by omega⟩
      have h3 : i + 1 + 1 - (xs.length + 1) = (i - xs.length) + 1 := by omega
      simp only [alternate, List.getElem?_cons_succ, List.length_cons, h3]
      exact ih ys i (by omega) (by omega)

/-- The order built by `SideCrossIterator` from a sorted vector `mid`: its first
half (the longer one for an odd length) alternating with the rest read backwards. -/
def crossOf (mid : List α) : List α :=
  alternate (mid.take ((mid.length + 1) / 2)) (mid.drop ((mid.length + 1) / 2)).reverse

theorem crossOf_cons_concat (x y : α) (mid : List α) :
    crossOf (x :: (mid ++ [y])) = x :: y :: crossOf mid := by
  have h1 : ((x :: (mid ++ [y])).length + 1) / 2 = (mid.length + 1) / 2 + 1 := by
    simp only [List.length_cons, List.length_append, List.length_nil]; omega
  have h2 : (mid.length + 1) / 2 ≤ mid.length := by omega
  unfold crossOf
  rw [h1, List.take_succ_cons, List.drop_succ_cons, List.take_append_of_le_length h2,
    List.drop_append_of_le_length h2, List.reverse_append]
  simp [alternate]

/-- The loop of `SideCrossIterator` on the part `mid` of `temp` that lies between
`left` and `right` (both included). -/
theorem sideCrossLoop_eq (mid : List α) :
    ∀ (A B order : List α), (A ≠ [] ∨ mid ≠ []) →
      sideCrossLoop (A ++ mid ++ B) ⟨A.length, A.length + mid.length - 1, order⟩
        = order ++ crossOf mid := by
  induction mid using List.bidirectionalRec with
  | nil =>
    intro A B order h
    have hA : 0 < A.length := by
      rcases h with h | h
      · exact List.length_pos.mpr h
      · exact absurd rfl h
    rw [sideCrossLoop, if_neg (by simp; omega)]
    simp [crossOf, alternate]
  | singleton x =>
    intro A B order _
    have hx : (A ++ x :: B)[A.length]? = some x :=
      getElem?_append_cons_of_eq A B x A.length rfl
    rw [sideCrossLoop, if_pos (by simp)]
    have hb : sideCrossBody (A ++ [x] ++ B) ⟨A.length, A.length + [x].length - 1, order⟩
        = ⟨A.length + 1, A.length, order ++ [x]⟩ := by
      simp only [sideCrossBody]
      simp [pushAt_of_getElem? hx]
    rw [hb, sideCrossLoop, if_neg (by simp)]
    simp [crossOf, alternate]
  | cons_append x mid y ih =>
    intro A B order _
    have htemp : A ++ (x :: (mid ++ [y])) ++ B = (A ++ [x]) ++ mid ++ (y :: B) := by simp
    have hx : (A ++ x :: (mid ++ y :: B))[A.length]? = some x :=
      getElem?_append_cons_of_eq A (mid ++ y :: B) x A.length rfl
    have hy : (A ++ x :: (mid ++ y :: B))[A.length + (mid.length + 1)]? = some y := by
      have := getElem?_append_cons_of_eq (A ++ x :: mid) B y (A.length + (mid.length + 1))
        (by simp)
      simpa using this
    rw [sideCrossLoop, if_pos (by simp)]
    have hb : sideCrossBody (A ++ (x :: (mid ++ [y])) ++ B)
        ⟨A.length, A.length + (x :: (mid ++ [y])).length - 1, order⟩
        = ⟨(A ++ [x]).length, (A ++ [x]).length + mid.length - 1, order ++ [x] ++ [y]⟩ := by
      simp only [sideCrossBody, List.length_cons, List.length_append, List.length_nil]
      have e1 : A.length + (mid.length + (0 + 1) + 1) - 1 = A.length + (mid.length + 1) := by
        omega
      simp [e1, pushAt_of_getElem? hx, pushAt_of_getElem? hy]
    rw [hb, htemp, ih (A ++ [x]) (y :: B) (order ++ [x] ++ [y]) (Or.inl (by simp)),
      crossOf_cons_concat]
    simp

end Walks

/-! ## The snapshots of the six constructors -/

section Snapshots

variable {α : Type}

theorem bubbleSort_nil (sw : α → α → Bool) : bubbleSort sw [] = [] := rfl

theorem AscendingIterator_order [LinearOrder α] (c : MyContainer α) (isEnd : Bool) :
    (AscendingIterator c isEnd).order = bubbleSort (fun a b => decide (a > b)) c.elements := by
  unfold AscendingIterator
  cases hc : c.elements with
  | nil => cases isEnd <;> simp [bubbleSort_nil]
  | cons a t => cases isEnd <;> simp

theorem DescendingIterator_order [LinearOrder α] (c : MyContainer α) (isEnd : Bool) :
    (DescendingIterator c isEnd).order = bubbleSort (fun a b => decide (a < b)) c.elements := by
  unfold DescendingIterator
  cases hc : c.elements with
  | nil => cases isEnd <;> simp [bubbleSort_nil]
  | cons a t => cases isEnd <;> simp

theorem SideCrossIterator_order [LinearOrder α] (c : MyContainer α) (isEnd : Bool) :
    (SideCrossIterator c isEnd).order = crossOf (stdSort c.elements) := by
  unfold SideCrossIterator
  cases hc : c.elements with
  | nil => cases isEnd <;> simp [stdSort, crossOf, alternate]
  | cons a t =>
    have hne : stdSort (a :: t) ≠ [] := by
      intro h
      have := congrArg List.length h
      rw [stdSort, List.length_insertionSort] at this
      simp at this
    have := sideCrossLoop_eq (stdSort (a :: t)) [] [] [] (Or.inr hne)
    simp only [List.nil_append, List.append_nil, List.length_nil, Nat.zero_add] at this
    cases isEnd <;> simp [this]

theorem reverse_foldl_pushAt (temp : List α) (m : Nat) (hm : m ≤ temp.length) :
    (List.range m).foldl (fun order k => pushAt order temp (temp.length - 1 - k)) []
      = (temp.drop (temp.length - m)).reverse := by
  induction m with
  | zero => simp
  | succ m ih =>
    have hlt : temp.length - (m + 1) < temp.length := by omega
    have hget : temp[temp.length - 1 - m]? = some (temp[temp.length - (m + 1)]) := by
      rw [show temp.length - 1 - m = temp.length - (m + 1) by omega]
      exact List.getElem?_eq_getElem hlt
    rw [List.range_succ, List.foldl_append, ih (by omega)]
    simp only [List.foldl_cons, List.foldl_nil]
    rw [pushAt_of_getElem? hget, List.drop_eq_getElem_cons hlt,
      show temp.length - (m + 1) + 1 = temp.length - m by omega]
    simp

theorem ReverseOrder_order (c : MyContainer α) (isEnd : Bool) :
    (ReverseOrder c isEnd).order = c.elements.reverse := by
  unfold ReverseOrder
  cases hc : c.elements with
  | nil => cases isEnd <;> simp
  | cons a t =>
    have := reverse_foldl_pushAt (a :: t) (a :: t).length (Nat.le_refl _)
    simp only [Nat.sub_self, List.drop_zero] at this
    cases isEnd <;> simp [-List.reverse_cons] <;> simpa using this

theorem MiddleOutOrder_order (c : MyContainer α) (isEnd : Bool) :
    (MiddleOutOrder c isEnd).order
      = (c.elements.drop ((c.elements.length - 1) / 2)).take 1
        ++ alternate (c.elements.take ((c.elements.length - 1) / 2)).reverse
            (c.elements.drop ((c.elements.length - 1) / 2 + 1)) := by
  unfold MiddleOutOrder
  cases hc : c.elements with
  | nil => cases isEnd <;> simp [alternate]
  | cons a t =>
    have hmid : (if (a :: t).length % 2 = 0 then (a :: t).length / 2 - 1
        else (a :: t).length / 2) = ((a :: t).length - 1) / 2 := by
      simp only [List.length_cons]
      split <;> omega
    have hlt : ((a :: t).length - 1) / 2 < (a :: t).length := by
      simp only [List.length_cons]; omega
    generalize ((a :: t).length - 1) / 2 = m at hmid hlt
    generalize a :: t = e at hmid hlt
    have hsplit : e = ((e.take m).reverse).reverse ++ [e[m]] ++ e.drop (m + 1) := by
      rw [List.reverse_reverse, List.append_assoc, List.singleton_append,
        ← List.drop_eq_getElem_cons hlt, List.take_append_drop]
    have hlen : (e.take m).reverse.length = m := by
      rw [List.length_reverse, List.length_take]; omega
    have hloop := middleOutLoop_eq (e.take m).reverse (e.drop (m + 1)) [e[m]] [e[m]]
    rw [← hsplit, hlen] at hloop
    have hpush : pushAt [] e m = [e[m]] := by
      rw [pushAt_of_getElem? (List.getElem?_eq_getElem hlt)]; rfl
    have htake : (e.drop m).take 1 = [e[m]] := by
      rw [List.drop_eq_getElem_cons hlt]; rfl
    have hne : e.isEmpty = false := by
      cases e with
      | nil => simp at hlt
      | cons _ _ => rfl
    have hlen0 : e.length ≠ 0 := by omega
    simp only [hne, hlen0, hmid, hpush, htake, List.length_singleton] at hloop ⊢
    cases isEnd <;> simp [hloop]

end Snapshots

/-! ## Positions in the alternating orders -/

section Positions

variable {α : Type}

theorem crossOf_length (s : List α) : (crossOf s).length = s.length := by
  unfold crossOf
  rw [length_alternate, List.length_reverse, List.length_take, List.length_drop]
  omega

theorem crossOf_perm (s : List α) : (crossOf s).Perm s := by
  unfold crossOf
  refine (alternate_perm _ _).trans ?_
  refine ((List.reverse_perm _).append_left _).trans ?_
  rw [List.take_append_drop]

theorem crossOf_getElem?_even (s : List α) (k : Nat) (hk : 2 * k < s.length) :
    (crossOf s)[2 * k]? = s[k]? := by
  unfold crossOf
  rw [alternate_getElem?_even _ _ k (by rw [List.length_take]; omega)
    (by rw [List.length_reverse, List.length_drop]; omega)]
  exact List.getElem?_take_of_lt (by omega)

theorem crossOf_getElem?_odd (s : List α) (k : Nat) (hk : 2 * k + 1 < s.length) :
    (crossOf s)[2 * k + 1]? = s[s.length - 1 - k]? := by
  unfold crossOf
  rw [alternate_getElem?_odd _ _ k (by rw [List.length_take]; omega)
    (by rw [List.length_reverse, List.length_drop]; omega),
    List.getElem?_reverse (by rw [List.length_drop]; omega), List.getElem?_drop,
    List.length_drop]
  congr 1
  omega

end Positions

/-! ## Removal and insertion -/

section Mutation

variable {α : Type} [DecidableEq α]

theorem eraseRemove_eq_filter (v : α) (l : List α) :
    eraseRemove v l = l.filter (fun x => decide (x ≠ v)) := by
  induction l with
  | nil => rfl
  | cons x xs ih =>
    by_cases h : x = v
    · simp [eraseRemove, h, ih]
    · simp [eraseRemove, h, ih]

theorem eraseRemove_length (v : α) (l : List α) :
    (eraseRemove v l).length + l.count v = l.length := by
  induction l with
  | nil => rfl
  | cons x xs ih =>
    by_cases h : x = v
    · subst h
      simp only [eraseRemove, if_true, List.count_cons_self, List.length_cons]
      omega
    · have hc : (x :: xs).count v = xs.count v := by simp [List.count_cons, h]
      simp only [eraseRemove, if_neg h, List.length_cons, hc]
      omega

theorem eraseRemove_length_eq_iff (v : α) (l : List α) :
    (eraseRemove v l).length = l.length ↔ v ∉ l := by
  have h := eraseRemove_length v l
  rw [← List.count_eq_zero]
  omega

theorem eraseRemove_of_not_mem (v : α) (l : List α) (h : v ∉ l) : eraseRemove v l = l := by
  rw [eraseRemove_eq_filter]
  refine List.filter_eq_self.mpr ?_
  intro x hx
  simp only [ne_eq, decide_eq_true_eq]
  rintro rfl
  exact h hx

theorem not_mem_eraseRemove (v : α) (l : List α) : v ∉ eraseRemove v l := by
  rw [eraseRemove_eq_filter]
  simp

theorem removeElement_fst_ok (c : MyContainer α) (v : α) (h : v ∈ c.elements) :
    (c.removeElement v).1 = Except.ok () := by
  have hne : ¬ (eraseRemove v c.elements).length = c.elements.length := by
    rw [eraseRemove_length_eq_iff]; exact fun hn => hn h
  simp [MyContainer.removeElement, hne]

theorem removeElement_fst_error (c : MyContainer α) (v : α) (h : v ∉ c.elements) :
    (c.removeElement v).1 = Except.error Exception.invalid_argument := by
  have he : (eraseRemove v c.elements).length = c.elements.length :=
    (eraseRemove_length_eq_iff v c.elements).mpr h
  simp [MyContainer.removeElement, he]

theorem removeElement_snd_elements (c : MyContainer α) (v : α) :
    (c.removeElement v).2.elements = eraseRemove v c.elements := by
  unfold MyContainer.removeElement
  simp only
  split <;> rfl

theorem removeElement_snd_addr (c : MyContainer α) (v : α) :
    (c.removeElement v).2.addr = c.addr := by
  unfold MyContainer.removeElement
  simp only
  split <;> rfl

end Mutation

/-! ## The traversal orders -/

section TraversalOrders

variable {α : Type}

/-- C1: for every container over a totally ordered element type the order built
by `AscendingIterator` (begin or end) is sorted in non-decreasing order and is a
permutation of the elements, every value keeping its multiplicity; the elements
`[3,1,5,2,4]` give `[1,2,3,4,5]`. -/
theorem ascending_sorted_perm [LinearOrder α] (c : MyContainer α) (isEnd : Bool) :
    (AscendingIterator c isEnd).order.Sorted (fun a b => a ≤ b)
    ∧ (AscendingIterator c isEnd).order.Perm c.elements
    ∧ (∀ x : α, (AscendingIterator c isEnd).order.count x = c.elements.count x)
    ∧ (∀ (addr : Nat) (e : Bool),
        (AscendingIterator (⟨addr, [3, 1, 5, 2, 4]⟩ : MyContainer Int) e).order
          = [1, 2, 3, 4, 5]) := by
  have h := bubbleSort_sorted_perm (fun a b : α => decide (a > b)) (fun a b => a ≤ b)
    (fun a b hab => by simpa using hab) (fun a b hab => le_of_lt (by simpa using hab))
    (fun a b c => le_trans) c.elements
  rw [AscendingIterator_order]
  refine ⟨h.1, h.2, fun x => h.2.count_eq x, ?_⟩
  intro addr e
  rw [AscendingIterator_order]
  show bubbleSort (fun a b : Int => decide (a > b)) [3, 1, 5, 2, 4] = [1, 2, 3, 4, 5]
  decide

/-- C2: for every container over a totally ordered element type the order built
by `DescendingIterator` (begin or end) is sorted in non-increasing order and is a
permutation of the elements, every value keeping its multiplicity; the elements
`[3,1,4,2]` give `[4,3,2,1]`. -/
theorem descending_sorted_perm [LinearOrder α] (c : MyContainer α) (isEnd : Bool) :
    (DescendingIterator c isEnd).order.Sorted (fun a b => a ≥ b)
    ∧ (DescendingIterator c isEnd).order.Perm c.elements
    ∧ (∀ x : α, (DescendingIterator c isEnd).order.count x = c.elements.count x)
    ∧ (∀ (addr : Nat) (e : Bool),
        (DescendingIterator (⟨addr, [3, 1, 4, 2]⟩ : MyContainer Int) e).order
          = [4, 3, 2, 1]) := by
  have h := bubbleSort_sorted_perm (fun a b : α => decide (a < b)) (fun a b => a ≥ b)
    (fun a b hab => by simpa using hab) (fun a b hab => le_of_lt (by simpa using hab))
    (fun a b c hab hbc => le_trans hbc hab) c.elements
  rw [DescendingIterator_order]
  refine ⟨h.1, h.2, fun x => h.2.count_eq x, ?_⟩
  intro addr e
  rw [DescendingIterator_order]
  show bubbleSort (fun a b : Int => decide (a < b)) [3, 1, 4, 2] = [4, 3, 2, 1]
  decide

/-- C3: let `s` be the elements of a container of `n` elements sorted ascending
(any sorted permutation of them).  The order built by `SideCrossIterator` has
length `n`, holds `s[k]` at position `2k` whenever `2k < n` and `s[n-1-k]` at
position `2k+1` whenever `2k+1 < n`; for odd `n` its last element is
`s[(n-1)/2]`.  The elements `[1,2,3,4,5]` give `[1,5,2,4,3]` and `[3,1,4,2]`
give `[1,4,2,3]`. -/
theorem sideCross_positions [LinearOrder α] (c : MyContainer α) (isEnd : Bool)
    (s : List α) (hs : s.Sorted (fun a b => a ≤ b)) (hp : s.Perm c.elements) :
    (SideCrossIterator c isEnd).order.length = c.size
    ∧ (∀ k : Nat, 2 * k < c.size → (SideCrossIterator c isEnd).order[2 * k]? = s[k]?)
    ∧ (∀ k : Nat, 2 * k + 1 < c.size →
        (SideCrossIterator c isEnd).order[2 * k + 1]? = s[c.size - 1 - k]?)
    ∧ (c.size % 2 = 1 →
        (SideCrossIterator c isEnd).order.getLast? = s[(c.size - 1) / 2]?)
    ∧ (∀ (addr : Nat) (e : Bool),
        (SideCrossIterator (⟨addr, [1, 2, 3, 4, 5]⟩ : MyContainer Int) e).order
          = [1, 5, 2, 4, 3])
    ∧ (∀ (addr : Nat) (e : Bool),
        (SideCrossIterator (⟨addr, [3, 1, 4, 2]⟩ : MyContainer Int) e).order
          = [1, 4, 2, 3]) := by
  have hsort : stdSort c.elements = s :=
    List.eq_of_perm_of_sorted ((List.perm_insertionSort _ _).trans hp.symm)
      (List.sorted_insertionSort _ _) hs
  have hlen : s.length = c.size := hp.length_eq
  rw [SideCrossIterator_order, hsort, ← hlen]
  refine ⟨crossOf_length s, fun k hk => crossOf_getElem?_even s k hk,
    fun k hk => crossOf_getElem?_odd s k hk, ?_, ?_, ?_⟩
  · intro hodd
    have h2 : s.length - 1 = 2 * ((s.length - 1) / 2) := by omega
    have h3 := crossOf_getElem?_even s ((s.length - 1) / 2) (by omega)
    rw [← h2] at h3
    rw [List.getLast?_eq_getElem?, crossOf_length, h3]
  · intro addr e
    rw [SideCrossIterator_order]
    show crossOf (stdSort ([1, 2, 3, 4, 5] : List Int)) = [1, 5, 2, 4, 3]
    decide
  · intro addr e
    rw [SideCrossIterator_order]
    show crossOf (stdSort ([3, 1, 4, 2] : List Int)) = [1, 4, 2, 3]
    decide

/-- Witness of C3: the container `[3,1,4,2]`, whose sorted elements are `[1,2,3,4]`. -/
theorem sideCross_positions_witness :
    ([1, 2, 3, 4] : List Int).Sorted (fun a b => a ≤ b)
    ∧ ([1, 2, 3, 4] : List Int).Perm [3, 1, 4, 2]
    ∧ (SideCrossIterator (⟨0, [3, 1, 4, 2]⟩ : MyContainer Int) false).order.length = 4
    ∧ (SideCrossIterator (⟨0, [3, 1, 4, 2]⟩ : MyContainer Int) false).order[2]? = some 2 :=
  ⟨by decide, by decide,
    (sideCross_positions ⟨0, [3, 1, 4, 2]⟩ false [1, 2, 3, 4] (by decide) (by decide)).1,
    (sideCross_positions ⟨0, [3, 1, 4, 2]⟩ false [1, 2, 3, 4] (by decide) (by decide)).2.1 1
      (by decide)⟩

/-- C4: for a non-empty container with elements `e` (in insertion order) of size
`n` and `m = (n-1)/2`, the order built by `MiddleOutOrder` has length `n`, starts
with `e[m]`, holds `e[m-k]` at position `2k-1` and `e[m+k]` at position `2k` for
every `1 ≤ k ≤ m`, and for even `n` ends with `e[n-1]`; for the empty container it
is empty.  The elements `[7,2,5,1,9]` give `[5,2,1,7,9]`. -/
theorem middleOut_positions (c : MyContainer α) (isEnd : Bool) :
    (c.elements ≠ [] →
      (MiddleOutOrder c isEnd).order.length = c.size
      ∧ (c.size - 1) / 2 < c.size
      ∧ (MiddleOutOrder c isEnd).order[0]? = c.elements[(c.size - 1) / 2]?
      ∧ (∀ k : Nat, 1 ≤ k → k ≤ (c.size - 1) / 2 →
          2 * k < c.size
          ∧ (MiddleOutOrder c isEnd).order[2 * k - 1]? = c.elements[(c.size - 1) / 2 - k]?
          ∧ (MiddleOutOrder c isEnd).order[2 * k]? = c.elements[(c.size - 1) / 2 + k]?)
      ∧ (c.size % 2 = 0 →
          (MiddleOutOrder c isEnd).order.getLast? = c.elements[c.size - 1]?))
    ∧ (c.elements = [] → (MiddleOutOrder c isEnd).order = [])
    ∧ (∀ (addr : Nat) (e : Bool),
        (MiddleOutOrder (⟨addr, [7, 2, 5, 1, 9]⟩ : MyContainer Int) e).order
          = [5, 2, 1, 7, 9]) := by
  refine ⟨?_, ?_, ?_⟩
  · intro hne
    have hpos : 0 < c.elements.length := List.length_pos.mpr hne
    rw [MiddleOutOrder_order]
    unfold MyContainer.size
    generalize hm : (c.elements.length - 1) / 2 = m
    generalize c.elements = e at hpos hm
    have hmlt : m < e.length := by omega
    have htake : (e.drop m).take 1 = [e[m]] := by
      rw [List.drop_eq_getElem_cons hmlt]; rfl
    have hL : (e.take m).reverse.length = m := by
      rw [List.length_reverse, List.length_take]; omega
    have hR : (e.drop (m + 1)).length = e.length - (m + 1) := List.length_drop _ _
    rw [htake]
    simp only [List.singleton_append]
    refine ⟨?_, hmlt, ?_, ?_, ?_⟩
    · rw [List.length_cons, length_alternate, hL, hR]; omega
    · rw [List.getElem?_cons_zero, List.getElem?_eq_getElem hmlt]
    · intro k hk1 hkm
      obtain ⟨j, rfl⟩ : ∃ j, k = j + 1 := ⟨k - 1, by omega⟩
      refine ⟨by omega, ?_, ?_⟩
      · rw [show 2 * (j + 1) - 1 = 2 * j + 1 by omega, List.getElem?_cons_succ,
          alternate_getElem?_even _ _ j (by omega) (by omega),
          List.getElem?_reverse (by rw [List.length_take]; omega), List.length_take,
          List.getElem?_take_of_lt (by omega)]
        congr 1
        omega
      · rw [show 2 * (j + 1) = (2 * j + 1) + 1 by omega, List.getElem?_cons_succ,
          alternate_getElem?_odd _ _ j (by omega) (by omega), List.getElem?_drop]
        congr 1
        omega
    · intro heven
      rw [List.getLast?_eq_getElem?, List.length_cons, length_alternate, hL, hR,
        show m + (e.length - (m + 1)) + 1 - 1 = (2 * m) + 1 by omega,
        List.getElem?_cons_succ,
        alternate_getElem?_right _ _ (2 * m) (by omega) (by omega), hL,
        List.getElem?_drop]
      congr 1
      omega
  · intro hnil
    rw [MiddleOutOrder_order, hnil]
    simp [alternate]
  · intro addr e
    rw [MiddleOutOrder_order]
    show (([7, 2, 5, 1, 9] : List Int).drop ((5 - 1) / 2)).take 1
      ++ alternate (([7, 2, 5, 1, 9] : List Int).take ((5 - 1) / 2)).reverse
          (([7, 2, 5, 1, 9] : List Int).drop ((5 - 1) / 2 + 1)) = [5, 2, 1, 7, 9]
    decide

/-- Witness of C4: the container `[7,2,5,1,9]`, at `k = 2`. -/
theorem middleOut_positions_witness :
    ([7, 2, 5, 1, 9] : List Int) ≠ []
    ∧ (MiddleOutOrder (⟨0, [7, 2, 5, 1, 9]⟩ : MyContainer Int) false).order.length = 5
    ∧ (MiddleOutOrder (⟨0, [7, 2, 5, 1, 9]⟩ : MyContainer Int) false).order[3]? = some 7
    ∧ (MiddleOutOrder (⟨0, [7, 2, 5, 1, 9]⟩ : MyContainer Int) false).order[4]? = some 9 :=
  ⟨by decide,
    ((middleOut_positions ⟨0, [7, 2, 5, 1, 9]⟩ false).1 (by decide)).1,
    (((middleOut_positions ⟨0, [7, 2, 5, 1, 9]⟩ false).1 (by decide)).2.2.2.1 2
      (by decide) (by decide)).2.1,
    (((middleOut_positions ⟨0, [7, 2, 5, 1, 9]⟩ false).1 (by decide)).2.2.2.1 2
      (by decide) (by decide)).2.2⟩

/-- C5: the order built by `ReverseOrder` is the element sequence reversed: for a
container of `n` elements its entry at position `i` is the element at position
`n-1-i`, so the element appended last comes first. -/
theorem reverseOrder_reversed (c : MyContainer α) (isEnd : Bool) :
    (ReverseOrder c isEnd).order = c.elements.reverse
    ∧ (ReverseOrder c isEnd).order.length = c.size
    ∧ (∀ i : Nat, i < c.size →
        (ReverseOrder c isEnd).order[i]? = c.elements[c.size - 1 - i]?)
    ∧ (ReverseOrder c isEnd).order.head? = c.elements.getLast? := by
  rw [ReverseOrder_order]
  refine ⟨rfl, List.length_reverse _, ?_, List.head?_reverse _⟩
  intro i hi
  exact List.getElem?_reverse hi

/-- Witness of C5: the container `[7,2,5,1,9]`, at position 1. -/
theorem reverseOrder_reversed_witness :
    (ReverseOrder (⟨0, [7, 2, 5, 1, 9]⟩ : MyContainer Int) false).order[1]? = some 1 :=
  (reverseOrder_reversed ⟨0, [7, 2, 5, 1, 9]⟩ false).2.2.1 1 (by decide)

/-- C6: the order built by `Order` is the element sequence itself, with the same
elements in the same order and of the same length, so it starts with the first
element of the container. -/
theorem order_verbatim (c : MyContainer α) (isEnd : Bool) :
    (Order c isEnd).order = c.elements
    ∧ (Order c isEnd).order.length = c.size
    ∧ (∀ i : Nat, (Order c isEnd).order[i]? = c.elements[i]?)
    ∧ (Order c isEnd).order.head? = c.elements.head? := by
  have h : (Order c isEnd).order = c.elements := by
    unfold Order
    cases isEnd <;> rfl
  rw [h]
  exact ⟨rfl, rfl, fun _ => rfl, rfl⟩

end TraversalOrders

/-! ## `removeElement` and `addElement` -/

section ContainerOperations

variable {α : Type}

/-- C7: when at least one element equals `v`, `removeElement v` returns normally
and leaves exactly the elements different from `v`, in their original relative
order: every element equal to `v` is gone, the other values keep their
multiplicities, and the size has dropped by the number of elements equal to `v`. -/
theorem removeElement_removes_all [DecidableEq α] (c : MyContainer α) (v : α)
    (h : v ∈ c.elements) :
    (c.removeElement v).1 = Except.ok ()
    ∧ (c.removeElement v).2.elements = c.elements.filter (fun x => decide (x ≠ v))
    ∧ v ∉ (c.removeElement v).2.elements
    ∧ (c.removeElement v).2.elements.Sublist c.elements
    ∧ (∀ w : α, w ≠ v → (c.removeElement v).2.elements.count w = c.elements.count w)
    ∧ (c.removeElement v).2.size + c.elements.count v = c.size
    ∧ 0 < c.elements.count v := by
  have hel := removeElement_snd_elements c v
  refine ⟨removeElement_fst_ok c v h, ?_, ?_, ?_, ?_, ?_, List.count_pos_iff.mpr h⟩
  · rw [hel, eraseRemove_eq_filter]
  · rw [hel]; exact not_mem_eraseRemove v _
  · rw [hel, eraseRemove_eq_filter]; exact List.filter_sublist _
  · intro w hw
    rw [hel, eraseRemove_eq_filter, List.count_filter]
    simpa using hw
  · unfold MyContainer.size
    rw [hel]
    exact eraseRemove_length v _

/-- Witness of C7: removing 4 from `[4,15,4,1,4]` leaves `[15,1]`. -/
theorem removeElement_removes_all_witness :
    (4 : Int) ∈ [4, 15, 4, 1, 4]
    ∧ ((⟨0, [4, 15, 4, 1, 4]⟩ : MyContainer Int).removeElement 4).1 = Except.ok ()
    ∧ ((⟨0, [4, 15, 4, 1, 4]⟩ : MyContainer Int).removeElement 4).2.elements = [15, 1] :=
  ⟨by decide,
    (removeElement_removes_all ⟨0, [4, 15, 4, 1, 4]⟩ 4 (by decide)).1,
    (removeElement_removes_all ⟨0, [4, 15, 4, 1, 4]⟩ 4 (by decide)).2.1⟩

/-- C8: `removeElement v` throws `std::invalid_argument` if and only if no element
equals `v` (and it returns normally otherwise); when it throws, the container,
and so its element sequence and size, is what it was before the call. -/
theorem removeElement_throws_iff [DecidableEq α] (c : MyContainer α) (v : α) :
    ((c.removeElement v).1 = Except.error Exception.invalid_argument
        ↔ ∀ x ∈ c.elements, x ≠ v)
    ∧ ((c.removeElement v).1 = Except.ok () ↔ ∃ x ∈ c.elements, x = v)
    ∧ ((c.removeElement v).1 = Except.error Exception.invalid_argument →
        (c.removeElement v).2 = c
        ∧ (c.removeElement v).2.elements = c.elements
        ∧ (c.removeElement v).2.size = c.size) := by
  by_cases hmem : v ∈ c.elements
  · have hok := removeElement_fst_ok c v hmem
    rw [hok]
    refine ⟨⟨fun h => (by cases h), fun h => absurd rfl (h v hmem)⟩,
      ⟨fun _ => ⟨v, hmem, rfl⟩, fun _ => rfl⟩, fun h => (by cases h)⟩
  · have herr := removeElement_fst_error c v hmem
    have hsame : (c.removeElement v).2 = c := by
      have h1 := removeElement_snd_elements c v
      have h2 := removeElement_snd_addr c v
      rw [eraseRemove_of_not_mem v _ hmem] at h1
      cases hc : (c.removeElement v).2 with
      | mk a e =>
        rw [hc] at h1 h2
        cases c
        simp_all
    rw [herr, hsame]
    refine ⟨⟨fun _ x hx hxv => hmem (hxv ▸ hx), fun _ => rfl⟩,
      ⟨fun h => (by cases h), fun ⟨x, hx, hxv⟩ => absurd (hxv ▸ hx) hmem⟩,
      fun _ => ⟨rfl, rfl, rfl⟩⟩

/-- Witness of C8: removing 99 from `[1,2,3]` throws and changes nothing. -/
theorem removeElement_throws_iff_witness :
    ((⟨0, [1, 2, 3]⟩ : MyContainer Int).removeElement 99).1
        = Except.error Exception.invalid_argument
    ∧ ((⟨0, [1, 2, 3]⟩ : MyContainer Int).removeElement 99).2 = ⟨0, [1, 2, 3]⟩ :=
  ⟨(removeElement_throws_iff ⟨0, [1, 2, 3]⟩ 99).1.mpr (by decide),
    ((removeElement_throws_iff ⟨0, [1, 2, 3]⟩ 99).2.2
      ((removeElement_throws_iff ⟨0, [1, 2, 3]⟩ 99).1.mpr (by decide))).1⟩

/-- Counterexample to C9 as stated: removing 4 from `[4,15,4,1,4]` leaves `[15,1]`,
whereas deleting only the first 4 would leave `[15,4,1,4]`. -/
theorem removeElement_not_first_only :
    (4 : Int) ∈ [4, 15, 4, 1, 4]
    ∧ ((⟨0, [4, 15, 4, 1, 4]⟩ : MyContainer Int).removeElement 4).2.elements = [15, 1]
    ∧ ([4, 15, 4, 1, 4] : List Int).erase 4 = [15, 4, 1, 4]
    ∧ ((⟨0, [4, 15, 4, 1, 4]⟩ : MyContainer Int).removeElement 4).2.elements
        ≠ ([4, 15, 4, 1, 4] : List Int).erase 4 := by
  refine ⟨by decide, rfl, by decide, ?_⟩
  show ([15, 1] : List Int) ≠ [15, 4, 1, 4]
  decide

/-- C9 (amended): when at least one element equals `v`, `removeElement v` returns
normally and deletes the first element equal to `v` together with every later
element equal to `v`, keeping all other elements in order; the result is the
sequence with only its first `v` deleted exactly when `v` occurs once. -/
theorem removeElement_first_and_later [DecidableEq α] (c : MyContainer α) (v : α)
    (h : v ∈ c.elements) :
    (c.removeElement v).1 = Except.ok ()
    ∧ (c.removeElement v).2.elements
        = (c.elements.erase v).filter (fun x => decide (x ≠ v))
    ∧ ((c.removeElement v).2.elements = c.elements.erase v ↔ c.elements.count v = 1) := by
  have hel := removeElement_snd_elements c v
  have hfilter : c.elements.filter (fun x => decide (x ≠ v))
      = (c.elements.erase v).filter (fun x => decide (x ≠ v)) := by
    generalize c.elements = l
    induction l with
    | nil => rfl
    | cons x xs ih =>
      by_cases hx : x = v
      · subst hx
        simp
      · have hx2 : ¬ (x == v) = true := by simpa using hx
        rw [List.erase_cons, if_neg hx2, List.filter_cons, List.filter_cons, ih]
  refine ⟨removeElement_fst_ok c v h, ?_, ?_⟩
  · rw [hel, eraseRemove_eq_filter, hfilter]
  · have hlen := eraseRemove_length v c.elements
    have herase : (c.elements.erase v).length = c.elements.length - 1 :=
      List.length_erase_of_mem h
    have hpos : 0 < c.elements.length := List.length_pos_of_mem h
    rw [hel]
    constructor
    · intro heq
      have := congrArg List.length heq
      omega
    · intro hcount
      rw [eraseRemove_eq_filter, hfilter]
      refine List.filter_eq_self.mpr ?_
      intro x hx
      simp only [ne_eq, decide_eq_true_eq]
      rintro rfl
      have : 0 < (c.elements.erase x).count x := List.count_pos_iff.mpr hx
      rw [List.count_erase_self] at this
      omega

/-- Witness of C9 (amended): removing 20 from `[10,20,30]`, where 20 occurs once. -/
theorem removeElement_first_and_later_witness :
    (20 : Int) ∈ [10, 20, 30]
    ∧ ((⟨0, [10, 20, 30]⟩ : MyContainer Int).removeElement 20).1 = Except.ok ()
    ∧ ((⟨0, [10, 20, 30]⟩ : MyContainer Int).removeElement 20).2.elements
        = ([10, 20, 30] : List Int).erase 20 :=
  ⟨by decide,
    (removeElement_first_and_later ⟨0, [10, 20, 30]⟩ 20 (by decide)).1,
    (removeElement_first_and_later ⟨0, [10, 20, 30]⟩ 20 (by decide)).2.2.mpr (by decide)⟩

/-- C10: `addElement v` (which cannot throw) turns the element sequence into the
old sequence followed by `v`: the size grows by exactly 1, a traversal in
insertion order ends with `v`, and every earlier position keeps its element. -/
theorem addElement_appends (c : MyContainer α) (v : α) :
    (c.addElement v).elements = c.elements ++ [v]
    ∧ (c.addElement v).size = c.size + 1
    ∧ (∀ isEnd : Bool, (Order (c.addElement v) isEnd).order.getLast? = some v)
    ∧ (c.addElement v).elements[c.size]? = some v
    ∧ (∀ i : Nat, i < c.size → (c.addElement v).elements[i]? = c.elements[i]?)
    ∧ (c.addElement v).addr = c.addr := by
  refine ⟨rfl, ?_, ?_, ?_, ?_, rfl⟩
  · simp [MyContainer.size, MyContainer.addElement]
  · intro isEnd
    have h : (Order (c.addElement v) isEnd).order = c.elements ++ [v] := by
      unfold Order
      cases isEnd <;> rfl
    rw [h]
    simp
  · simp [MyContainer.size, MyContainer.addElement]
  · intro i hi
    exact List.getElem?_append_left hi

/-- Witness of C10: appending 99 to `[42,7]` keeps position 1. -/
theorem addElement_appends_witness :
    ((⟨0, [42, 7]⟩ : MyContainer Int).addElement 99).elements[1]? = some 7 :=
  (addElement_appends ⟨0, [42, 7]⟩ 99).2.2.2.2.1 1 (by decide)

end ContainerOperations

/-! ## The iterators handed out by the container -/

section CursorFacts

variable {α : Type}

/-- The order that the constructors of the given kind build from a container. -/
def MyContainer.snapshot [LinearOrder α] (c : MyContainer α) : OrderKind → List α
  | OrderKind.ascending => bubbleSort (fun a b => decide (a > b)) c.elements
  | OrderKind.descending => bubbleSort (fun a b => decide (a < b)) c.elements
  | OrderKind.sideCross => crossOf (stdSort c.elements)
  | OrderKind.reverse => c.elements.reverse
  | OrderKind.insertion => c.elements
  | OrderKind.middleOut =>
    (c.elements.drop ((c.elements.length - 1) / 2)).take 1
      ++ alternate (c.elements.take ((c.elements.length - 1) / 2)).reverse
          (c.elements.drop ((c.elements.length - 1) / 2 + 1))

theorem bubbleSort_length (sw : α → α → Bool) (l : List α) :
    (bubbleSort sw l).length = l.length := by
  have h := bubbleSort_sorted_perm sw (fun _ _ => True) (fun _ _ _ => trivial)
    (fun _ _ _ => trivial) (fun _ _ _ _ _ => trivial) l
  exact h.2.length_eq

theorem stdSort_length [LinearOrder α] (l : List α) : (stdSort l).length = l.length :=
  List.length_insertionSort _ l

theorem snapshot_length [LinearOrder α] (c : MyContainer α) (k : OrderKind) :
    (c.snapshot k).length = c.size := by
  unfold MyContainer.size
  cases k with
  | ascending => exact bubbleSort_length _ _
  | descending => exact bubbleSort_length _ _
  | sideCross => exact (crossOf_length _).trans (stdSort_length _)
  | reverse => exact List.length_reverse _
  | insertion => rfl
  | middleOut =>
    simp only [MyContainer.snapshot, List.length_append, List.length_take, List.length_drop,
      length_alternate, List.length_reverse]
    omega

theorem Order_order (c : MyContainer α) (isEnd : Bool) : (Order c isEnd).order = c.elements := by
  unfold Order
  cases isEnd <;> rfl

theorem AscendingIterator_container [LinearOrder α] (c : MyContainer α) (isEnd : Bool) :
    (AscendingIterator c isEnd).container = c.addr := by
  unfold AscendingIterator
  cases isEnd <;> simp only [] <;> split <;> rfl

theorem DescendingIterator_container [LinearOrder α] (c : MyContainer α) (isEnd : Bool) :
    (DescendingIterator c isEnd).container = c.addr := by
  unfold DescendingIterator
  cases isEnd <;> simp only [] <;> split <;> rfl

theorem SideCrossIterator_container [LinearOrder α] (c : MyContainer α) (isEnd : Bool) :
    (SideCrossIterator c isEnd).container = c.addr := by
  unfold SideCrossIterator
  cases isEnd <;> simp only [] <;> split <;> rfl

theorem ReverseOrder_container (c : MyContainer α) (isEnd : Bool) :
    (ReverseOrder c isEnd).container = c.addr := by
  unfold ReverseOrder
  cases isEnd <;> simp only [] <;> split <;> rfl

theorem Order_container (c : MyContainer α) (isEnd : Bool) :
    (Order c isEnd).container = c.addr := by
  unfold Order
  cases isEnd <;> rfl

theorem MiddleOutOrder_container (c : MyContainer α) (isEnd : Bool) :
    (MiddleOutOrder c isEnd).container = c.addr := by
  unfold MiddleOutOrder
  cases isEnd <;> simp only [] <;> split <;> try rfl
  all_goals split <;> rfl

theorem AscendingIterator_index [LinearOrder α] (c : MyContainer α) (isEnd : Bool) :
    (AscendingIterator c isEnd).index
      = if isEnd then (AscendingIterator c isEnd).order.length else 0 := by
  unfold AscendingIterator
  cases hc : c.elements <;> cases isEnd <;> simp

theorem DescendingIterator_index [LinearOrder α] (c : MyContainer α) (isEnd : Bool) :
    (DescendingIterator c isEnd).index
      = if isEnd then (DescendingIterator c isEnd).order.length else 0 := by
  unfold DescendingIterator
  cases hc : c.elements <;> cases isEnd <;> simp

theorem SideCrossIterator_index [LinearOrder α] (c : MyContainer α) (isEnd : Bool) :
    (SideCrossIterator c isEnd).index
      = if isEnd then (SideCrossIterator c isEnd).order.length else 0 := by
  unfold SideCrossIterator
  cases hc : c.elements <;> cases isEnd <;> simp

theorem ReverseOrder_index (c : MyContainer α) (isEnd : Bool) :
    (ReverseOrder c isEnd).index
      = if isEnd then (ReverseOrder c isEnd).order.length else 0 := by
  unfold ReverseOrder
  cases hc : c.elements <;> cases isEnd <;> simp

theorem Order_index (c : MyContainer α) (isEnd : Bool) :
    (Order c isEnd).index = if isEnd then (Order c isEnd).order.length else 0 := by
  unfold Order
  cases isEnd <;> simp

theorem MiddleOutOrder_index (c : MyContainer α) (isEnd : Bool) :
    (MiddleOutOrder c isEnd).index
      = if isEnd then (MiddleOutOrder c isEnd).order.length else 0 := by
  unfold MiddleOutOrder
  cases hc : c.elements <;> cases isEnd <;> simp

/-- Every `begin_..._order` iterator: the address of the container, the order of
its kind, and index 0. -/
theorem cursorBegin_eq [LinearOrder α] (c : MyContainer α) (k : OrderKind) :
    c.cursorBegin k = ⟨c.addr, c.snapshot k, 0⟩ := by
  cases k
  · have h1 := AscendingIterator_container c false
    have h2 := AscendingIterator_order c false
    have h3 := AscendingIterator_index c false
    show AscendingIterator c false = _
    cases h : AscendingIterator c false
    rw [h] at h1 h2 h3
    simp_all [MyContainer.snapshot]
  · have h1 := DescendingIterator_container c false
    have h2 := DescendingIterator_order c false
    have h3 := DescendingIterator_index c false
    show DescendingIterator c false = _
    cases h : DescendingIterator c false
    rw [h] at h1 h2 h3
    simp_all [MyContainer.snapshot]
  · have h1 := SideCrossIterator_container c false
    have h2 := SideCrossIterator_order c false
    have h3 := SideCrossIterator_index c false
    show SideCrossIterator c false = _
    cases h : SideCrossIterator c false
    rw [h] at h1 h2 h3
    simp_all [MyContainer.snapshot]
  · have h1 := ReverseOrder_container c false
    have h2 := ReverseOrder_order c false
    have h3 := ReverseOrder_index c false
    show ReverseOrder c false = _
    cases h : ReverseOrder c false
    rw [h] at h1 h2 h3
    simp_all [MyContainer.snapshot]
  · have h1 := Order_container c false
    have h2 := Order_order c false
    have h3 := Order_index c false
    show Order c false = _
    cases h : Order c false
    rw [h] at h1 h2 h3
    simp_all [MyContainer.snapshot]
  · have h1 := MiddleOutOrder_container c false
    have h2 := MiddleOutOrder_order c false
    have h3 := MiddleOutOrder_index c false
    show MiddleOutOrder c false = _
    cases h : MiddleOutOrder c false
    rw [h] at h1 h2 h3
    simp_all [MyContainer.snapshot]

/-- Every `end_..._order` iterator: the address of the container, the order of its
kind, and the size of the container as index. -/
theorem cursorEnd_eq [LinearOrder α] (c : MyContainer α) (k : OrderKind) :
    c.cursorEnd k = ⟨c.addr, c.snapshot k, c.size⟩ := by
  have hlen := snapshot_length c k
  cases k
  · have h1 := AscendingIterator_container c true
    have h2 := AscendingIterator_order c true
    have h3 := AscendingIterator_index c true
    show AscendingIterator c true = _
    cases h : AscendingIterator c true
    rw [h] at h1 h2 h3
    simp_all [MyContainer.snapshot]
  · have h1 := DescendingIterator_container c true
    have h2 := DescendingIterator_order c true
    have h3 := DescendingIterator_index c true
    show DescendingIterator c true = _
    cases h : DescendingIterator c true
    rw [h] at h1 h2 h3
    simp_all [MyContainer.snapshot]
  · have h1 := SideCrossIterator_container c true
    have h2 := SideCrossIterator_order c true
    have h3 := SideCrossIterator_index c true
    show SideCrossIterator c true = _
    cases h : SideCrossIterator c true
    rw [h] at h1 h2 h3
    simp_all [MyContainer.snapshot]
  · have h1 := ReverseOrder_container c true
    have h2 := ReverseOrder_order c true
    have h3 := ReverseOrder_index c true
    show ReverseOrder c true = _
    cases h : ReverseOrder c true
    rw [h] at h1 h2 h3
    simp_all [MyContainer.snapshot]
  · have h1 := Order_container c true
    have h2 := Order_order c true
    have h3 := Order_index c true
    show Order c true = _
    cases h : Order c true
    rw [h] at h1 h2 h3
    simp_all [MyContainer.snapshot]
  · have h1 := MiddleOutOrder_container c true
    have h2 := MiddleOutOrder_order c true
    have h3 := MiddleOutOrder_index c true
    show MiddleOutOrder c true = _
    cases h : MiddleOutOrder c true
    rw [h] at h1 h2 h3
    simp_all [MyContainer.snapshot]

theorem dereference_of_le (it : BaseIterator α) (h : it.order.length ≤ it.index) :
    it.dereference = Except.error Exception.out_of_range := by
  unfold BaseIterator.dereference
  rw [if_pos h]

theorem dereference_of_lt (it : BaseIterator α) (h : it.index < it.order.length) :
    it.dereference = Except.ok (it.order[it.index]) := by
  unfold BaseIterator.dereference
  rw [if_neg (by omega), List.getElem?_eq_getElem h]

/-- The loop of the callers from index `i` on, over an order shorter than `2^64` and
with enough fuel: it leaves after `s.length - i` rounds with the rest of the order
appended. -/
theorem traverse_from (a : Nat) (s : List α) (hsize : s.length < 2 ^ 64) :
    ∀ (fuel i : Nat) (result : List α) (rounds : Nat), i ≤ s.length → s.length - i < fuel →
      traverse ⟨a, s, s.length⟩ fuel ⟨a, s, i⟩ result rounds
        = some (Except.ok (result ++ s.drop i, rounds + (s.length - i))) := by
  intro fuel
  induction fuel with
  | zero => intro i result rounds _ h; omega
  | succ fuel ih =>
    intro i result rounds hi hfuel
    by_cases hlast : i = s.length
    · subst hlast
      simp [traverse, BaseIterator.notEquals]
    · have hlt : i < s.length := by omega
      have hne : BaseIterator.notEquals ⟨a, s, i⟩ ⟨a, s, s.length⟩ = Except.ok true := by
        simp [BaseIterator.notEquals, hlast]
      have hd : BaseIterator.dereference ⟨a, s, i⟩ = Except.ok s[i] :=
        dereference_of_lt ⟨a, s, i⟩ hlt
      have hmod : (i + 1) % 2 ^ 64 = i + 1 := Nat.mod_eq_of_lt (by omega)
      unfold traverse
      rw [hne, hd]
      simp only [BaseIterator.preIncrement, hmod]
      rw [ih (i + 1) (result ++ [s[i]]) (rounds + 1) (by omega) (by omega),
        List.drop_eq_getElem_cons hlt]
      have hr : rounds + 1 + (s.length - (i + 1)) = rounds + (s.length - i) := by omega
      rw [hr]
      simp only [List.append_assoc, List.singleton_append]

/-- The loop of the callers cannot be left with fewer tests than rounds to do. -/
theorem traverse_short (a : Nat) (s : List α) :
    ∀ (fuel i : Nat) (result : List α) (rounds : Nat), i ≤ s.length → fuel ≤ s.length - i →
      traverse ⟨a, s, s.length⟩ fuel ⟨a, s, i⟩ result rounds = none := by
  intro fuel
  induction fuel with
  | zero => intro i result rounds _ _; rfl
  | succ fuel ih =>
    intro i result rounds hi hfuel
    have hlt : i < s.length := by omega
    have hne : BaseIterator.notEquals ⟨a, s, i⟩ ⟨a, s, s.length⟩ = Except.ok true := by
      simp [BaseIterator.notEquals]
      omega
    have hd : BaseIterator.dereference ⟨a, s, i⟩ = Except.ok s[i] :=
      dereference_of_lt ⟨a, s, i⟩ hlt
    have hmod : (i + 1) % 2 ^ 64 ≤ i + 1 := Nat.mod_le _ _
    unfold traverse
    rw [hne, hd]
    simp only [BaseIterator.preIncrement]
    exact ih ((i + 1) % 2 ^ 64) _ _ (by omega) (by omega)

/-- Whatever the loop of the callers has collected when it is left comes from what
was collected before or from the order of the iterator. -/
theorem traverse_mem (last : BaseIterator α) :
    ∀ (fuel : Nat) (it : BaseIterator α) (result : List α) (rounds : Nat) (r : List α)
      (n : Nat), traverse last fuel it result rounds = some (Except.ok (r, n)) →
      ∀ x ∈ r, x ∈ result ∨ x ∈ it.order := by
  intro fuel
  induction fuel with
  | zero => intro it result rounds r n h; cases h
  | succ fuel ih =>
    intro it result rounds r n h x hx
    unfold traverse at h
    cases hne : it.notEquals last with
    | error e => rw [hne] at h; cases h
    | ok b =>
      rw [hne] at h
      cases b with
      | false =>
        simp only [Option.some.injEq, Except.ok.injEq, Prod.mk.injEq] at h
        rw [← h.1] at hx
        exact Or.inl hx
      | true =>
        simp only at h
        cases hd : it.dereference with
        | error e => rw [hd] at h; cases h
        | ok y =>
          rw [hd] at h
          simp only at h
          have hy : y ∈ it.order := by
            by_cases hlt : it.index < it.order.length
            · rw [dereference_of_lt it hlt] at hd
              cases hd
              exact List.getElem_mem _
            · rw [dereference_of_le it (by omega)] at hd
              cases hd
          rcases ih it.preIncrement (result ++ [y]) (rounds + 1) r n h x hx with h1 | h1
          · rcases List.mem_append.mp h1 with h2 | h2
            · exact Or.inl h2
            · rw [List.mem_singleton] at h2
              exact Or.inr (h2 ▸ hy)
          · exact Or.inr h1

theorem print_eq_append (fmt : α → String) (l : List α) :
    ∀ (os : String) (addr : Nat),
      MyContainer.print fmt os ⟨addr, l⟩ = os ++ renderSpec fmt l := by
  induction l with
  | nil => intro os addr; simp [MyContainer.print, renderSpec]
  | cons x xs ih =>
    intro os addr
    have h := ih (os ++ fmt x ++ " ") addr
    simp only [MyContainer.print, List.foldl_cons] at h ⊢
    rw [h, renderSpec, String.append_assoc, String.append_assoc, String.append_assoc]

theorem renderSpec_append (fmt : α → String) (x : α) (l : List α) :
    renderSpec fmt (l ++ [x]) = renderSpec fmt l ++ fmt x ++ " " := by
  induction l with
  | nil => simp [renderSpec]
  | cons y ys ih =>
    rw [List.cons_append, renderSpec, ih, renderSpec]
    simp only [String.append_assoc]

theorem Scene.run_cursor [DecidableEq α] (ms : List (Mutation α)) :
    ∀ s : Scene α, (s.run ms).cursor = s.cursor := by
  induction ms with
  | nil => intro s; rfl
  | cons m ms ih =>
    intro s
    exact ih (s.mutate m)

theorem Scene.run_container [DecidableEq α] (ms : List (Mutation α)) :
    ∀ s : Scene α, (s.run ms).container = ms.foldl MyContainer.mutate s.container := by
  induction ms with
  | nil => intro s; rfl
  | cons m ms ih =>
    intro s
    exact ih (s.mutate m)

/-- An iterator at index 0 over an order that is sorted by a reflexive relation `R`
and is a permutation of a non-empty `l`: `operator*` gives an `R`-least element of `l`. -/
theorem dereference_first_of_sorted (R : α → α → Prop) (hrefl : ∀ x, R x x) (a : Nat)
    (s l : List α) (hs : s.Pairwise R) (hp : s.Perm l) (hl : l ≠ []) :
    ∃ m : α, BaseIterator.dereference ⟨a, s, 0⟩ = Except.ok m ∧ m ∈ l ∧ ∀ x ∈ l, R m x := by
  match s, hs, hp with
  | [], _, hp => exact absurd hp.symm.eq_nil hl
  | m :: t, hs, hp =>
    refine ⟨m, dereference_of_lt ⟨a, m :: t, 0⟩ (by simp), hp.mem_iff.mp (by simp), ?_⟩
    intro x hx
    rcases List.mem_cons.mp (hp.mem_iff.mpr hx) with rfl | hxt
    · exact hrefl _
    · exact (List.pairwise_cons.mp hs).1 x hxt

end CursorFacts

/-! ## The operations of the iterators -/

section CursorOperations

variable {α : Type}

/-- C11: for every container and each of the six ordering kinds, the begin
iterator compares equal (`operator==`) to the end iterator if and only if the
container is empty. -/
theorem begin_equals_end_iff_empty [LinearOrder α] (c : MyContainer α) (k : OrderKind) :
    ((c.cursorBegin k).equals (c.cursorEnd k) = true ↔ c.elements = [])
    ∧ ((c.cursorEnd k).equals (c.cursorBegin k) = true ↔ c.elements = []) := by
  rw [cursorBegin_eq, cursorEnd_eq]
  simp only [BaseIterator.equals, MyContainer.size, beq_iff_eq]
  constructor
  · rw [eq_comm, List.length_eq_zero]
  · rw [List.length_eq_zero]

/-- C12: for every iterator, `operator*` throws `std::out_of_range` if and only if
its index is greater than or equal to the size of its order; otherwise it returns
the entry of the order at the index (and it throws nothing else). -/
theorem dereference_throws_iff (it : BaseIterator α) :
    (it.dereference = Except.error Exception.out_of_range ↔ it.order.length ≤ it.index)
    ∧ (it.index < it.order.length →
        ∃ x : α, it.order[it.index]? = some x ∧ it.dereference = Except.ok x)
    ∧ (∀ e : Exception, it.dereference = Except.error e → e = Exception.out_of_range) := by
  refine ⟨⟨?_, dereference_of_le it⟩, ?_, ?_⟩
  · intro h
    by_contra hlt
    rw [dereference_of_lt it (by omega)] at h
    cases h
  · intro h
    exact ⟨it.order[it.index], List.getElem?_eq_getElem h, dereference_of_lt it h⟩
  · intro e h
    by_cases hle : it.order.length ≤ it.index
    · rw [dereference_of_le it hle] at h
      cases h
      rfl
    · rw [dereference_of_lt it (by omega)] at h
      cases h

/-- Witness of C12: an iterator over `[5,7]` at index 1, and one at index 2. -/
theorem dereference_throws_iff_witness :
    (∃ x : Int, ([5, 7] : List Int)[1]? = some x
        ∧ (⟨0, [5, 7], 1⟩ : BaseIterator Int).dereference = Except.ok x)
    ∧ (⟨0, [5, 7], 2⟩ : BaseIterator Int).dereference
        = Except.error Exception.out_of_range :=
  ⟨(dereference_throws_iff (⟨0, [5, 7], 1⟩ : BaseIterator Int)).2.1 (by decide),
    (dereference_throws_iff (⟨0, [5, 7], 2⟩ : BaseIterator Int)).1.mpr (by decide)⟩

/-- C13: for every container, empty or not, and each of the six ordering kinds,
the end iterator stands exactly at the size of its order, which is the size of
the container, so `operator*` on it throws `std::out_of_range`; on the empty
container `operator*` on the begin iterator throws as well. -/
theorem cursorEnd_dereference_throws [LinearOrder α] (c : MyContainer α) (k : OrderKind) :
    (c.cursorEnd k).index = (c.cursorEnd k).order.length
    ∧ (c.cursorEnd k).order.length = c.size
    ∧ (c.cursorEnd k).dereference = Except.error Exception.out_of_range
    ∧ (c.elements = [] →
        (c.cursorBegin k).dereference = Except.error Exception.out_of_range) := by
  have hlen := snapshot_length c k
  refine ⟨?_, ?_, ?_, ?_⟩
  · rw [cursorEnd_eq]; exact hlen.symm
  · rw [cursorEnd_eq]; exact hlen
  · apply dereference_of_le
    rw [cursorEnd_eq]
    exact Nat.le_of_eq hlen
  · intro hnil
    apply dereference_of_le
    rw [cursorBegin_eq]
    show (c.snapshot k).length ≤ 0
    rw [hlen, MyContainer.size, hnil]
    exact Nat.le_refl _

/-- Witness of C13: the begin iterators of the empty container. -/
theorem cursorEnd_dereference_throws_witness :
    ((⟨0, []⟩ : MyContainer Int).cursorBegin OrderKind.ascending).dereference
        = Except.error Exception.out_of_range
    ∧ ((⟨0, []⟩ : MyContainer Int).cursorBegin OrderKind.middleOut).dereference
        = Except.error Exception.out_of_range :=
  ⟨(cursorEnd_dereference_throws (⟨0, []⟩ : MyContainer Int) OrderKind.ascending).2.2.2 rfl,
    (cursorEnd_dereference_throws (⟨0, []⟩ : MyContainer Int) OrderKind.middleOut).2.2.2 rfl⟩

/-- C14: for every two iterators, `operator!=` throws `std::invalid_argument` if and
only if they refer to different containers; when they refer to the same container
it returns true exactly when the two indices differ.  Neither the orders nor the
kinds of the iterators enter the result. -/
theorem notEquals_throws_iff (a b : BaseIterator α) :
    (a.notEquals b = Except.error Exception.invalid_argument ↔ a.container ≠ b.container)
    ∧ (a.container = b.container → a.notEquals b = Except.ok (decide (a.index ≠ b.index)))
    ∧ (∀ e : Exception, a.notEquals b = Except.error e → e = Exception.invalid_argument)
    ∧ (∀ oa ob : List α,
        (⟨a.container, oa, a.index⟩ : BaseIterator α).notEquals ⟨b.container, ob, b.index⟩
          = a.notEquals b) := by
  unfold BaseIterator.notEquals
  by_cases h : a.container = b.container
  · simp [h, bne]
    by_cases hi : a.index = b.index <;> simp [hi]
  · simp [h]

/-- Witness of C14: the begin iterators of two containers at different addresses,
and the begin and the end iterator of one container. -/
theorem notEquals_throws_iff_witness :
    ((⟨1, [1]⟩ : MyContainer Int).begin_order).notEquals
        ((⟨2, [1]⟩ : MyContainer Int).begin_order)
      = Except.error Exception.invalid_argument
    ∧ ((⟨1, [7, 2, 9]⟩ : MyContainer Int).end_order).notEquals
        ((⟨1, [7, 2, 9]⟩ : MyContainer Int).begin_order)
      = Except.ok true :=
  ⟨(notEquals_throws_iff ((⟨1, [1]⟩ : MyContainer Int).begin_order)
      ((⟨2, [1]⟩ : MyContainer Int).begin_order)).1.mpr (by decide),
    (notEquals_throws_iff ((⟨1, [7, 2, 9]⟩ : MyContainer Int).end_order)
      ((⟨1, [7, 2, 9]⟩ : MyContainer Int).begin_order)).2.1 (by decide)⟩

/-- C15: for every two iterators, from the same container or not and of the same
kind or not, `operator==` throws nothing and is true if and only if the two
indices are equal. -/
theorem equals_iff_same_index (a b : BaseIterator α) :
    (a.equals b = true ↔ a.index = b.index)
    ∧ (a.equals b = false ↔ a.index ≠ b.index)
    ∧ (∀ (ca cb : Nat) (oa ob : List α),
        (⟨ca, oa, a.index⟩ : BaseIterator α).equals ⟨cb, ob, b.index⟩ = a.equals b) := by
  unfold BaseIterator.equals
  refine ⟨by simp, by simp, fun _ _ _ _ => rfl⟩

/-- Counterexample to C17 as stated: on an iterator over `[1,2,3]` at index
`2^64 - 1` both increments leave the index at 0, not at `2^64`. -/
theorem increment_wraps :
    (⟨0, [1, 2, 3], 2 ^ 64 - 1⟩ : BaseIterator Int).preIncrement.index = 0
    ∧ (⟨0, [1, 2, 3], 2 ^ 64 - 1⟩ : BaseIterator Int).postIncrement.2.index = 0
    ∧ ¬ ((⟨0, [1, 2, 3], 2 ^ 64 - 1⟩ : BaseIterator Int).preIncrement.index
        = (⟨0, [1, 2, 3], 2 ^ 64 - 1⟩ : BaseIterator Int).index + 1)
    ∧ ¬ ((⟨0, [1, 2, 3], 2 ^ 64 - 1⟩ : BaseIterator Int).postIncrement.2.index
        = (⟨0, [1, 2, 3], 2 ^ 64 - 1⟩ : BaseIterator Int).index + 1) := by
  refine ⟨by decide, by decide, ?_, ?_⟩
  · show ¬ ((2 ^ 64 - 1 + 1) % 2 ^ 64 = 2 ^ 64 - 1 + 1)
    decide
  · show ¬ ((2 ^ 64 - 1 + 1) % 2 ^ 64 = 2 ^ 64 - 1 + 1)
    decide

/-- C17 (amended): for an iterator at index `p`, the pre-increment leaves it at
`p + 1` taken modulo `2^64`, that is at `p + 1` when `p + 1 < 2^64` and at 0 when
`p = 2^64 - 1`; the post-increment leaves it there as well and returns an iterator
at `p`.  The order and the container reference of the iterator and of the
returned copy are those of the original, and the copy moves on its own: after one
more increment of either one the other is where it was. -/
theorem increment_positions (it : BaseIterator α) :
    it.preIncrement.index = (it.index + 1) % 2 ^ 64
    ∧ (it.index + 1 < 2 ^ 64 → it.preIncrement.index = it.index + 1)
    ∧ (it.index = 2 ^ 64 - 1 → it.preIncrement.index = 0)
    ∧ it.preIncrement.order = it.order
    ∧ it.preIncrement.container = it.container
    ∧ it.postIncrement.2.index = (it.index + 1) % 2 ^ 64
    ∧ (it.index + 1 < 2 ^ 64 → it.postIncrement.2.index = it.index + 1)
    ∧ (it.index = 2 ^ 64 - 1 → it.postIncrement.2.index = 0)
    ∧ it.postIncrement.1.index = it.index
    ∧ it.postIncrement.1 = it
    ∧ it.postIncrement.2 = it.preIncrement
    ∧ it.postIncrement.2.order = it.order
    ∧ it.postIncrement.2.container = it.container
    ∧ (it.postIncrement.1.preIncrement, it.postIncrement.2).2.index = (it.index + 1) % 2 ^ 64
    ∧ (it.postIncrement.1.preIncrement, it.postIncrement.2).1.index = (it.index + 1) % 2 ^ 64
    ∧ (it.postIncrement.1, it.postIncrement.2.preIncrement).1.index = it.index
    ∧ (it.postIncrement.1, it.postIncrement.2.preIncrement).2.index
        = ((it.index + 1) % 2 ^ 64 + 1) % 2 ^ 64
    ∧ (it.index + 2 < 2 ^ 64 →
        (it.postIncrement.1, it.postIncrement.2.preIncrement).2.index = it.index + 2)
    ∧ (∀ addr : Nat,
        ((⟨addr, [1, 2]⟩ : MyContainer Int).begin_ascending_order.postIncrement.1).dereference
          = Except.ok 1
        ∧ ((⟨addr, [1, 2]⟩ : MyContainer Int).begin_ascending_order.postIncrement.2).dereference
          = Except.ok 2) := by
  have hlt : it.index + 1 < 2 ^ 64 → (it.index + 1) % 2 ^ 64 = it.index + 1 :=
    fun h => Nat.mod_eq_of_lt h
  have hmax : it.index = 2 ^ 64 - 1 → (it.index + 1) % 2 ^ 64 = 0 := by
    intro h
    rw [h]
    decide
  refine ⟨rfl, hlt, hmax, rfl, rfl, rfl, hlt, hmax, rfl, rfl, rfl, rfl, rfl, rfl, rfl, rfl,
    rfl, ?_, ?_⟩
  · intro h2
    show ((it.index + 1) % 2 ^ 64 + 1) % 2 ^ 64 = it.index + 2
    rw [Nat.mod_eq_of_lt (show it.index + 1 < 2 ^ 64 by omega),
      Nat.mod_eq_of_lt (show it.index + 1 + 1 < 2 ^ 64 by omega)]
  · intro addr
    have e1 := cursorBegin_eq (⟨addr, [1, 2]⟩ : MyContainer Int) OrderKind.ascending
    have h1 : bubbleSort (fun a b : Int => decide (a > b)) [1, 2] = [1, 2] := by decide
    simp only [MyContainer.cursorBegin, MyContainer.snapshot, h1] at e1
    rw [e1]
    exact ⟨rfl, rfl⟩

/-- Witness of C17 (amended): an iterator over `[1,2,3]` at index 1, and one at
index `2^64 - 1`. -/
theorem increment_positions_witness :
    (⟨0, [1, 2, 3], 1⟩ : BaseIterator Int).preIncrement.index = 2
    ∧ (⟨0, [1, 2, 3], 1⟩ : BaseIterator Int).postIncrement.2.index = 2
    ∧ (⟨0, [1, 2, 3], 2 ^ 64 - 1⟩ : BaseIterator Int).preIncrement.index = 0 :=
  ⟨(increment_positions (⟨0, [1, 2, 3], 1⟩ : BaseIterator Int)).2.1 (by decide),
    (increment_positions (⟨0, [1, 2, 3], 1⟩ : BaseIterator Int)).2.2.2.2.2.2.1 (by decide),
    (increment_positions (⟨0, [1, 2, 3], 2 ^ 64 - 1⟩ : BaseIterator Int)).2.2.1 rfl⟩

/-- C16: an iterator object that exists beside a container keeps its order and its
index through every later sequence of `addElement` and `removeElement` calls on
the container, so `operator*` on it gives what it gave before (the same value or
the same `std::out_of_range`); for the iterators handed out by the container the
order stays the one built from the container as it was then.  After
`addElement(1)`, `begin_order()`, `addElement(2)` the iterator still yields 1,
while a new `begin_order()` sees `[1,2]`. -/
theorem snapshot_stability [LinearOrder α] (c : MyContainer α) (it : BaseIterator α)
    (ms : List (Mutation α)) :
    ((Scene.mk c it).run ms).cursor = it
    ∧ ((Scene.mk c it).run ms).cursor.order = it.order
    ∧ ((Scene.mk c it).run ms).cursor.index = it.index
    ∧ ((Scene.mk c it).run ms).cursor.dereference = it.dereference
    ∧ ((Scene.mk c it).run ms).container = ms.foldl MyContainer.mutate c
    ∧ (∀ k : OrderKind,
        ((Scene.mk c (c.cursorBegin k)).run ms).cursor.order = (c.cursorBegin k).order
        ∧ ((Scene.mk c (c.cursorEnd k)).run ms).cursor.order = (c.cursorBegin k).order
        ∧ ((Scene.mk c (c.cursorBegin k)).run ms).cursor.index = 0
        ∧ ((Scene.mk c (c.cursorEnd k)).run ms).cursor.index = c.size)
    ∧ (∀ addr : Nat,
        ((Scene.mk (⟨addr, [1]⟩ : MyContainer Int) (⟨addr, [1]⟩ : MyContainer Int).begin_order).run
            [Mutation.addElement 2]).cursor.dereference = Except.ok 1
        ∧ ((Scene.mk (⟨addr, [1]⟩ : MyContainer Int) (⟨addr, [1]⟩ : MyContainer Int).begin_order).run
            [Mutation.addElement 2]).container.begin_order.order = [1, 2]) := by
  have h := Scene.run_cursor ms (Scene.mk c it)
  refine ⟨h, by rw [h], by rw [h], by rw [h], Scene.run_container ms _, ?_, ?_⟩
  · intro k
    rw [Scene.run_cursor, Scene.run_cursor]
    simp only [cursorBegin_eq, cursorEnd_eq, and_self]
  · intro addr
    exact ⟨rfl, rfl⟩

/-- C18: for a container of `n` elements (`n` below `2^64`, as the size of every
vector is) and each of the six ordering kinds, the loop
`for (it = begin; it != end; ++it) result.push_back(*it)` is left after exactly
`n` rounds (`n + 1` tests of `!=`, and not fewer), throws nothing, and has
collected the order of the kind, entry by entry. -/
theorem traverse_collects_order [LinearOrder α] (c : MyContainer α) (k : OrderKind)
    (fuel : Nat) :
    (c.size < 2 ^ 64 → c.size < fuel →
      traverse (c.cursorEnd k) fuel (c.cursorBegin k) [] 0
        = some (Except.ok ((c.cursorBegin k).order, c.size)))
    ∧ (fuel ≤ c.size → traverse (c.cursorEnd k) fuel (c.cursorBegin k) [] 0 = none)
    ∧ (c.cursorBegin k).order.length = c.size
    ∧ (c.cursorEnd k).order = (c.cursorBegin k).order := by
  have hlen := snapshot_length c k
  rw [cursorBegin_eq, cursorEnd_eq, ← hlen]
  refine ⟨?_, ?_, rfl, rfl⟩
  · intro hsize hfuel
    have h := traverse_from c.addr (c.snapshot k) hsize fuel 0 [] 0 (Nat.zero_le _)
      (by omega)
    simpa using h
  · intro hfuel
    exact traverse_short c.addr (c.snapshot k) fuel 0 [] 0 (Nat.zero_le _) (by omega)

/-- Witness of C18: the side-cross loop over `[1,2,3,4,5]` with 6 tests. -/
theorem traverse_collects_order_witness :
    traverse ((⟨0, [1, 2, 3, 4, 5]⟩ : MyContainer Int).cursorEnd OrderKind.sideCross) 6
        ((⟨0, [1, 2, 3, 4, 5]⟩ : MyContainer Int).cursorBegin OrderKind.sideCross) [] 0
      = some (Except.ok
          (((⟨0, [1, 2, 3, 4, 5]⟩ : MyContainer Int).cursorBegin OrderKind.sideCross).order, 5)) :=
  (traverse_collects_order (⟨0, [1, 2, 3, 4, 5]⟩ : MyContainer Int) OrderKind.sideCross 6).1
    (by decide) (by decide)

/-- C19: the text that `operator<<` writes for a container is the concatenation, in
insertion order, of the text of each element followed by exactly one space, also
after the last element; the empty container gives the empty text and `[1,2,3]`
gives `"1 2 3 "`. -/
theorem render_text (fmt : α → String) (c : MyContainer α) :
    c.render fmt = renderSpec fmt c.elements
    ∧ (∀ os : String, c.print fmt os = os ++ renderSpec fmt c.elements)
    ∧ (∀ addr : Nat, (⟨addr, []⟩ : MyContainer α).render fmt = "")
    ∧ (∀ (addr : Nat) (l : List α) (x : α),
        (⟨addr, l ++ [x]⟩ : MyContainer α).render fmt
          = (⟨addr, l⟩ : MyContainer α).render fmt ++ fmt x ++ " ")
    ∧ (∀ addr : Nat,
        (⟨addr, [1, 2, 3]⟩ : MyContainer Int).render (fun n => toString n) = "1 2 3 ") := by
  have hprint : ∀ (d : MyContainer α) (os : String),
      d.print fmt os = os ++ renderSpec fmt d.elements := by
    intro d os
    cases d with
    | mk addr l => exact print_eq_append fmt l os addr
  have hrender : ∀ d : MyContainer α, d.render fmt = renderSpec fmt d.elements := by
    intro d
    unfold MyContainer.render
    rw [hprint, String.empty_append]
  refine ⟨hrender c, hprint c, fun addr => rfl, ?_, ?_⟩
  · intro addr l x
    rw [hrender, hrender]
    exact renderSpec_append fmt x l
  · intro addr
    have h : renderSpec (fun n : Int => toString n) [1, 2, 3] = "1 2 3 " := by decide
    have hp := print_eq_append (fun n : Int => toString n) [1, 2, 3] "" addr
    rw [String.empty_append, h] at hp
    exact hp

/-- C20: on a non-empty container over a totally ordered element type, `operator*`
on `begin_ascending_order()` returns the least element and `operator*` on
`begin_descending_order()` returns the greatest element; for `[7,2,9]` these are
2 and 9. -/
theorem begin_sorted_extremes [LinearOrder α] (c : MyContainer α) (h : c.elements ≠ []) :
    (∃ m : α, c.begin_ascending_order.dereference = Except.ok m
        ∧ m ∈ c.elements ∧ ∀ x ∈ c.elements, m ≤ x)
    ∧ (∃ m : α, c.begin_descending_order.dereference = Except.ok m
        ∧ m ∈ c.elements ∧ ∀ x ∈ c.elements, x ≤ m)
    ∧ (∀ addr : Nat,
        (⟨addr, [7, 2, 9]⟩ : MyContainer Int).begin_ascending_order.dereference = Except.ok 2
        ∧ (⟨addr, [7, 2, 9]⟩ : MyContainer Int).begin_descending_order.dereference
            = Except.ok 9) := by
  have hasc := bubbleSort_sorted_perm (fun a b : α => decide (a > b)) (fun a b => a ≤ b)
    (fun a b hab => by simpa using hab) (fun a b hab => le_of_lt (by simpa using hab))
    (fun a b c => le_trans) c.elements
  have hdesc := bubbleSort_sorted_perm (fun a b : α => decide (a < b)) (fun a b => a ≥ b)
    (fun a b hab => by simpa using hab) (fun a b hab => le_of_lt (by simpa using hab))
    (fun a b c hab hbc => le_trans hbc hab) c.elements
  have hb1 : c.begin_ascending_order = ⟨c.addr, _, 0⟩ := cursorBegin_eq c OrderKind.ascending
  have hb2 : c.begin_descending_order = ⟨c.addr, _, 0⟩ := cursorBegin_eq c OrderKind.descending
  refine ⟨?_, ?_, ?_⟩
  · rw [hb1]
    exact dereference_first_of_sorted (fun a b => a ≤ b) le_refl c.addr _ _ hasc.1 hasc.2 h
  · rw [hb2]
    exact dereference_first_of_sorted (fun a b => a ≥ b) le_refl c.addr _ _ hdesc.1 hdesc.2 h
  · intro addr
    have h1 : bubbleSort (fun a b : Int => decide (a > b)) [7, 2, 9] = [2, 7, 9] := by decide
    have h2 : bubbleSort (fun a b : Int => decide (a < b)) [7, 2, 9] = [9, 7, 2] := by decide
    have e1 := cursorBegin_eq (⟨addr, [7, 2, 9]⟩ : MyContainer Int) OrderKind.ascending
    have e2 := cursorBegin_eq (⟨addr, [7, 2, 9]⟩ : MyContainer Int) OrderKind.descending
    simp only [MyContainer.cursorBegin, MyContainer.snapshot, h1, h2] at e1 e2
    rw [e1, e2]
    exact ⟨rfl, rfl⟩

/-- Witness of C20: the container `[7,2,9]`. -/
theorem begin_sorted_extremes_witness :
    ([7, 2, 9] : List Int) ≠ []
    ∧ ∃ m : Int, (⟨0, [7, 2, 9]⟩ : MyContainer Int).begin_ascending_order.dereference
        = Except.ok m ∧ m ∈ ([7, 2, 9] : List Int) ∧ ∀ x ∈ ([7, 2, 9] : List Int), m ≤ x :=
  ⟨by decide, (begin_sorted_extremes (⟨0, [7, 2, 9]⟩ : MyContainer Int) (by decide)).1⟩

end CursorOperations

/-! ## Relations between the operations -/

section RelationFacts

variable {α : Type}

theorem removeElement_snd_of_not_mem [DecidableEq α] (c : MyContainer α) (v : α)
    (h : v ∉ c.elements) : (c.removeElement v).2 = c := by
  have h1 := removeElement_snd_elements c v
  have h2 := removeElement_snd_addr c v
  rw [eraseRemove_of_not_mem v _ h] at h1
  cases hc : (c.removeElement v).2 with
  | mk a e =>
    rw [hc] at h1 h2
    cases c
    simp_all

theorem mem_of_removeElement_ok [DecidableEq α] (c : MyContainer α) (v : α)
    (h : (c.removeElement v).1 = Except.ok ()) : v ∈ c.elements := by
  by_contra hn
  rw [removeElement_fst_error c v hn] at h
  cases h

theorem advance_index (steps : List Bool) :
    ∀ it : BaseIterator α, it.index < 2 ^ 64 →
      (it.advance steps).index = (it.index + steps.length) % 2 ^ 64 := by
  induction steps with
  | nil => intro it h; exact (Nat.mod_eq_of_lt h).symm
  | cons b rest ih =>
    intro it _
    have hstep : ((it.index + 1) % 2 ^ 64 + rest.length) % 2 ^ 64
        = (it.index + (rest.length + 1)) % 2 ^ 64 := by
      rw [Nat.add_mod, Nat.mod_mod, ← Nat.add_mod]
      congr 1
      omega
    have hlt : (it.index + 1) % 2 ^ 64 < 2 ^ 64 := Nat.mod_lt _ (by decide)
    cases b
    · rw [BaseIterator.advance, ih it.preIncrement hlt, List.length_cons]
      exact hstep
    · rw [BaseIterator.advance, ih it.postIncrement.2 hlt, List.length_cons]
      exact hstep

theorem advance_order (steps : List Bool) :
    ∀ it : BaseIterator α, (it.advance steps).order = it.order := by
  induction steps with
  | nil => intro it; rfl
  | cons b rest ih =>
    intro it
    cases b
    · rw [BaseIterator.advance, ih]; rfl
    · rw [BaseIterator.advance, ih]; rfl

theorem advance_container (steps : List Bool) :
    ∀ it : BaseIterator α, (it.advance steps).container = it.container := by
  induction steps with
  | nil => intro it; rfl
  | cons b rest ih =>
    intro it
    cases b
    · rw [BaseIterator.advance, ih]; rfl
    · rw [BaseIterator.advance, ih]; rfl

/-- The elements after a sequence of mutating calls are a subsequence of what was
there before, followed by the appended values. -/
theorem mutate_sublist [DecidableEq α] (ms : List (Mutation α)) :
    ∀ (c : MyContainer α) (before : List α), c.elements.Sublist before →
      (ms.foldl MyContainer.mutate c).elements.Sublist (before ++ appended ms) := by
  induction ms with
  | nil => intro c before h; simpa [appended] using h
  | cons m ms ih =>
    intro c before h
    cases m with
    | addElement val =>
      have h1 : (c.mutate (Mutation.addElement val)).elements.Sublist (before ++ [val]) :=
        List.Sublist.append h (List.Sublist.refl _)
      have := ih _ _ h1
      simpa [appended] using this
    | removeElement val =>
      have h1 : (c.mutate (Mutation.removeElement val)).elements.Sublist before := by
        show (c.removeElement val).2.elements.Sublist before
        rw [removeElement_snd_elements, eraseRemove_eq_filter]
        exact (List.filter_sublist _).trans h
      have := ih _ _ h1
      simpa [appended] using this

theorem ascending_eq_stdSort [LinearOrder α] (l : List α) :
    bubbleSort (fun a b : α => decide (a > b)) l = stdSort l := by
  have h := bubbleSort_sorted_perm (fun a b : α => decide (a > b)) (fun a b => a ≤ b)
    (fun a b hab => by simpa using hab) (fun a b hab => le_of_lt (by simpa using hab))
    (fun a b c => le_trans) l
  exact List.eq_of_perm_of_sorted (h.2.trans (List.perm_insertionSort _ l).symm) h.1
    (List.sorted_insertionSort _ l)

theorem descending_eq_stdSort_reverse [LinearOrder α] (l : List α) :
    bubbleSort (fun a b : α => decide (a < b)) l = (stdSort l).reverse := by
  have h := bubbleSort_sorted_perm (fun a b : α => decide (a < b)) (fun a b => a ≥ b)
    (fun a b hab => by simpa using hab) (fun a b hab => le_of_lt (by simpa using hab))
    (fun a b c hab hbc => le_trans hbc hab) l
  have hrev : (bubbleSort (fun a b : α => decide (a < b)) l).reverse.Sorted (fun a b => a ≤ b) :=
    List.pairwise_reverse.mpr h.1
  have heq : (bubbleSort (fun a b : α => decide (a < b)) l).reverse = stdSort l :=
    List.eq_of_perm_of_sorted
      (((List.reverse_perm _).trans h.2).trans (List.perm_insertionSort _ l).symm) hrev
      (List.sorted_insertionSort _ l)
  rw [← heq, List.reverse_reverse]

theorem stdSort_eq_of_perm [LinearOrder α] {l₁ l₂ : List α} (h : l₁.Perm l₂) :
    stdSort l₁ = stdSort l₂ :=
  List.eq_of_perm_of_sorted
    (((List.perm_insertionSort _ l₁).trans h).trans (List.perm_insertionSort _ l₂).symm)
    (List.sorted_insertionSort _ l₁) (List.sorted_insertionSort _ l₂)

theorem middleOut_snapshot_perm (e : List α) :
    ((e.drop ((e.length - 1) / 2)).take 1
      ++ alternate (e.take ((e.length - 1) / 2)).reverse
          (e.drop ((e.length - 1) / 2 + 1))).Perm e := by
  generalize (e.length - 1) / 2 = m
  have h1 : e.drop (m + 1) = (e.drop m).drop 1 := by
    rw [List.drop_drop, Nat.add_comm]
  have h2 : ((e.drop m).take 1 ++ alternate (e.take m).reverse (e.drop (m + 1))).Perm
      ((e.drop m).take 1 ++ ((e.take m).reverse ++ e.drop (m + 1))) :=
    (alternate_perm _ _).append_left _
  refine h2.trans ?_
  have h3 : ((e.drop m).take 1 ++ ((e.take m).reverse ++ e.drop (m + 1))).Perm
      ((e.take m).reverse ++ ((e.drop m).take 1 ++ e.drop (m + 1))) := by
    rw [← List.append_assoc, ← List.append_assoc]
    exact List.perm_append_comm.append_right _
  refine h3.trans ?_
  rw [h1, List.take_append_drop]
  have h4 := (List.reverse_perm (e.take m)).append_right (e.drop m)
  rw [List.take_append_drop] at h4
  exact h4

end RelationFacts

/-! ## Positions under increments, and relations between the orders -/

section Relations

variable {α : Type}

/-- Counterexample to C21 as stated: one `++` on the end iterator of the container
`[1]` puts its index at 2, above the size 1 of its order. -/
theorem advance_leaves_range :
    (((⟨0, [1]⟩ : MyContainer Int).cursorEnd OrderKind.insertion).advance [false]).index = 2
    ∧ (((⟨0, [1]⟩ : MyContainer Int).cursorEnd OrderKind.insertion).advance [false]).order.length
        = 1
    ∧ ¬ ((((⟨0, [1]⟩ : MyContainer Int).cursorEnd OrderKind.insertion).advance [false]).index
        ≤ (((⟨0, [1]⟩ : MyContainer Int).cursorEnd OrderKind.insertion).advance
            [false]).order.length) := by
  refine ⟨rfl, rfl, ?_⟩
  show ¬ (2 ≤ 1)
  decide

/-- C21 (amended): a begin iterator stands at 0 and an end iterator at the size of
its order; every increment (pre or post) adds one to the index modulo `2^64` and
makes no test against the size of the order.  On a container of fewer than `2^64`
elements, after `j` increments a begin iterator is at `j` modulo `2^64` and an end
iterator at the size plus `j` modulo `2^64`; as long as the size plus `j` is below
`2^64`, the former is within `[0, size of the order]` exactly when `j` is at most
the size, and the latter only for `j = 0`. -/
theorem advance_positions [LinearOrder α] (c : MyContainer α) (k : OrderKind)
    (steps : List Bool) (hsize : c.size < 2 ^ 64) :
    (c.cursorBegin k).index = 0
    ∧ (c.cursorEnd k).index = (c.cursorEnd k).order.length
    ∧ ((c.cursorBegin k).advance steps).index = steps.length % 2 ^ 64
    ∧ ((c.cursorEnd k).advance steps).index = (c.size + steps.length) % 2 ^ 64
    ∧ ((c.cursorBegin k).advance steps).order.length = c.size
    ∧ ((c.cursorEnd k).advance steps).order.length = c.size
    ∧ (c.size + steps.length < 2 ^ 64 →
        ((c.cursorBegin k).advance steps).index = steps.length
        ∧ ((c.cursorEnd k).advance steps).index = c.size + steps.length
        ∧ (((c.cursorBegin k).advance steps).index
              ≤ ((c.cursorBegin k).advance steps).order.length
            ↔ steps.length ≤ c.size)
        ∧ (((c.cursorEnd k).advance steps).index
              ≤ ((c.cursorEnd k).advance steps).order.length
            ↔ steps = [])) := by
  have hlen := snapshot_length c k
  have hb : ((c.cursorBegin k).advance steps).index = steps.length % 2 ^ 64 := by
    rw [advance_index steps _ (by rw [cursorBegin_eq]; exact Nat.lt_of_le_of_lt (Nat.zero_le _) hsize),
      cursorBegin_eq, Nat.zero_add]
  have he : ((c.cursorEnd k).advance steps).index = (c.size + steps.length) % 2 ^ 64 := by
    rw [advance_index steps _ (by rw [cursorEnd_eq]; exact hsize), cursorEnd_eq]
  have hob : ((c.cursorBegin k).advance steps).order.length = c.size := by
    rw [advance_order, cursorBegin_eq]; exact hlen
  have hoe : ((c.cursorEnd k).advance steps).order.length = c.size := by
    rw [advance_order, cursorEnd_eq]; exact hlen
  refine ⟨by rw [cursorBegin_eq], by rw [cursorEnd_eq]; exact hlen.symm, hb, he, hob, hoe, ?_⟩
  intro hsum
  rw [hb, he, hob, hoe, Nat.mod_eq_of_lt hsum,
    Nat.mod_eq_of_lt (show steps.length < 2 ^ 64 by omega), ← List.length_eq_zero]
  refine ⟨rfl, rfl, Iff.rfl, ?_⟩
  omega

/-- Witness of C21 (amended): the container `[7,2,9]` and the increments
`++it; it++`. -/
theorem advance_positions_witness :
    (⟨0, [7, 2, 9]⟩ : MyContainer Int).size < 2 ^ 64
    ∧ (((⟨0, [7, 2, 9]⟩ : MyContainer Int).cursorBegin OrderKind.ascending).advance
        [false, true]).index = 2
    ∧ (((⟨0, [7, 2, 9]⟩ : MyContainer Int).cursorEnd OrderKind.ascending).advance
        [false, true]).index = 5 :=
  ⟨by decide,
    ((advance_positions (⟨0, [7, 2, 9]⟩ : MyContainer Int) OrderKind.ascending [false, true]
      (by decide)).2.2.2.2.2.2 (by decide)).1,
    ((advance_positions (⟨0, [7, 2, 9]⟩ : MyContainer Int) OrderKind.ascending [false, true]
      (by decide)).2.2.2.2.2.2 (by decide)).2.1⟩

/-- Counterexample to C22 as stated: an iterator over `[1,2,3]` at index `2^64 - 1`
is beyond the size of its order, and after one more `++` its index is 0 and
`operator*` returns 1. -/
theorem advance_wraps_into_range :
    (⟨0, [1, 2, 3], 2 ^ 64 - 1⟩ : BaseIterator Int).order.length
        ≤ (⟨0, [1, 2, 3], 2 ^ 64 - 1⟩ : BaseIterator Int).index
    ∧ (⟨0, [1, 2, 3], 2 ^ 64 - 1⟩ : BaseIterator Int).dereference
        = Except.error Exception.out_of_range
    ∧ ((⟨0, [1, 2, 3], 2 ^ 64 - 1⟩ : BaseIterator Int).advance [false]).index = 0
    ∧ ((⟨0, [1, 2, 3], 2 ^ 64 - 1⟩ : BaseIterator Int).advance [false]).dereference
        = Except.ok 1
    ∧ ((⟨0, [1, 2, 3], 2 ^ 64 - 1⟩ : BaseIterator Int).advance [true]).dereference
        = Except.ok 1
    ∧ ((⟨0, [1, 2, 3], 2 ^ 64 - 1⟩ : BaseIterator Int).advance [false]).dereference
        ≠ Except.error Exception.out_of_range := by
  have hidx : ((⟨0, [1, 2, 3], 2 ^ 64 - 1⟩ : BaseIterator Int).advance [false]).index = 0 := by
    decide
  have hpre : (⟨0, [1, 2, 3], 2 ^ 64 - 1⟩ : BaseIterator Int).advance [false]
      = ⟨0, [1, 2, 3], 0⟩ := by
    decide
  have hpost : (⟨0, [1, 2, 3], 2 ^ 64 - 1⟩ : BaseIterator Int).advance [true]
      = ⟨0, [1, 2, 3], 0⟩ := by
    decide
  refine ⟨by decide, dereference_of_le _ (by decide), hidx, ?_, ?_, ?_⟩
  · rw [hpre]; rfl
  · rw [hpost]; rfl
  · rw [hpre]
    intro h
    cases h

/-- C22 (amended): the increments (pre and post) are total: at any index, also at
and beyond the size of the order, they add one modulo `2^64` and throw nothing.
For an iterator whose index `p` is at or beyond the size of its order, `operator*`
after `j` further increments throws `std::out_of_range` exactly when `p + j`
modulo `2^64` is at or beyond the size; so it still throws as long as
`p + j < 2^64`. -/
theorem advance_past_end_throws (it : BaseIterator α) (steps : List Bool)
    (h : it.order.length ≤ it.index) (hidx : it.index < 2 ^ 64) :
    it.preIncrement.index = (it.index + 1) % 2 ^ 64
    ∧ it.postIncrement.2.index = (it.index + 1) % 2 ^ 64
    ∧ (it.advance steps).index = (it.index + steps.length) % 2 ^ 64
    ∧ (it.advance steps).order = it.order
    ∧ ((it.advance steps).dereference = Except.error Exception.out_of_range
        ↔ it.order.length ≤ (it.index + steps.length) % 2 ^ 64)
    ∧ (it.index + steps.length < 2 ^ 64 →
        (it.advance steps).index = it.index + steps.length
        ∧ (it.advance steps).dereference = Except.error Exception.out_of_range) := by
  have hi := advance_index steps it hidx
  have ho := advance_order steps it
  refine ⟨rfl, rfl, hi, ho, ?_, ?_⟩
  · constructor
    · intro hd
      by_contra hlt
      rw [dereference_of_lt _ (by rw [hi, ho]; omega)] at hd
      cases hd
    · intro hle
      exact dereference_of_le _ (by rw [hi, ho]; exact hle)
  · intro hsum
    have hm : (it.index + steps.length) % 2 ^ 64 = it.index + steps.length :=
      Nat.mod_eq_of_lt hsum
    refine ⟨by rw [hi, hm], dereference_of_le _ ?_⟩
    rw [hi, ho, hm]
    omega

/-- Witness of C22 (amended): the end iterator of `[7,2,9]` after `++it; it++; ++it`. -/
theorem advance_past_end_throws_witness :
    (((⟨0, [7, 2, 9]⟩ : MyContainer Int).end_order).advance [false, true, false]).dereference
      = Except.error Exception.out_of_range :=
  ((advance_past_end_throws ((⟨0, [7, 2, 9]⟩ : MyContainer Int).end_order) [false, true, false]
    (by decide) (by decide)).2.2.2.2.2 (by decide)).2

/-- C23: after every sequence of `addElement` and `removeElement` calls on an
initially empty container (calls of `removeElement` that throw included), the
elements are a subsequence of the appended values in the order of the calls. -/
theorem survivors_in_append_order [DecidableEq α] (addr : Nat) (ms : List (Mutation α)) :
    (ms.foldl MyContainer.mutate (⟨addr, []⟩ : MyContainer α)).elements.Sublist (appended ms)
    ∧ ((Scene.mk (⟨addr, []⟩ : MyContainer α) (Order ⟨addr, []⟩ false)).run
        ms).container.elements.Sublist (appended ms) := by
  have h := mutate_sublist ms (⟨addr, []⟩ : MyContainer α) [] (List.Sublist.refl _)
  rw [List.nil_append] at h
  refine ⟨h, ?_⟩
  rw [Scene.run_container]
  exact h

/-- C24: the orders built by `SideCrossIterator` and by `MiddleOutOrder` are
permutations of the elements of the container: each has the size of the
container and holds every value as many times as the container does. -/
theorem sideCross_middleOut_perm [LinearOrder α] (c : MyContainer α) (isEnd : Bool) :
    (SideCrossIterator c isEnd).order.Perm c.elements
    ∧ (SideCrossIterator c isEnd).order.length = c.size
    ∧ (∀ x : α, (SideCrossIterator c isEnd).order.count x = c.elements.count x)
    ∧ (MiddleOutOrder c isEnd).order.Perm c.elements
    ∧ (MiddleOutOrder c isEnd).order.length = c.size
    ∧ (∀ x : α, (MiddleOutOrder c isEnd).order.count x = c.elements.count x) := by
  have h1 : (SideCrossIterator c isEnd).order.Perm c.elements := by
    rw [SideCrossIterator_order]
    exact (crossOf_perm _).trans (List.perm_insertionSort _ _)
  have h2 : (MiddleOutOrder c isEnd).order.Perm c.elements := by
    rw [MiddleOutOrder_order]
    exact middleOut_snapshot_perm c.elements
  exact ⟨h1, h1.length_eq, fun x => h1.count_eq x, h2, h2.length_eq, fun x => h2.count_eq x⟩

/-- C25: when `removeElement v` returns normally, the container it leaves holds no
element equal to `v` (a traversal in insertion order does not meet `v`), and a
second `removeElement v` right after it throws `std::invalid_argument` and leaves
the container as it is. -/
theorem removeElement_twice [DecidableEq α] (c : MyContainer α) (v : α)
    (h : (c.removeElement v).1 = Except.ok ()) :
    v ∈ c.elements
    ∧ v ∉ (c.removeElement v).2.elements
    ∧ (∀ isEnd : Bool, v ∉ (Order (c.removeElement v).2 isEnd).order)
    ∧ (∀ (fuel : Nat) (result : List α) (rounds : Nat),
        traverse (c.removeElement v).2.end_order fuel (c.removeElement v).2.begin_order [] 0
          = some (Except.ok (result, rounds)) → v ∉ result)
    ∧ ((c.removeElement v).2.removeElement v).1 = Except.error Exception.invalid_argument
    ∧ ((c.removeElement v).2.removeElement v).2 = (c.removeElement v).2 := by
  have hnot : v ∉ (c.removeElement v).2.elements := by
    rw [removeElement_snd_elements]
    exact not_mem_eraseRemove v _
  refine ⟨mem_of_removeElement_ok c v h, hnot, ?_, ?_,
    removeElement_fst_error _ v hnot, removeElement_snd_of_not_mem _ v hnot⟩
  · intro isEnd
    rw [Order_order]
    exact hnot
  · intro fuel result rounds htr
    generalize (c.removeElement v).2 = d at hnot htr
    have hb : d.begin_order = ⟨d.addr, d.elements, 0⟩ := rfl
    rw [hb] at htr
    intro hv
    rcases traverse_mem _ fuel _ [] 0 result rounds htr v hv with h1 | h1
    · cases h1
    · exact hnot h1

/-- Witness of C25: removing 20 from `[10,20,30]` twice. -/
theorem removeElement_twice_witness :
    ((⟨0, [10, 20, 30]⟩ : MyContainer Int).removeElement 20).1 = Except.ok ()
    ∧ (20 : Int) ∉ ((⟨0, [10, 20, 30]⟩ : MyContainer Int).removeElement 20).2.elements
    ∧ ((((⟨0, [10, 20, 30]⟩ : MyContainer Int).removeElement 20).2).removeElement 20).1
        = Except.error Exception.invalid_argument :=
  ⟨rfl, (removeElement_twice (⟨0, [10, 20, 30]⟩ : MyContainer Int) 20 rfl).2.1,
    (removeElement_twice (⟨0, [10, 20, 30]⟩ : MyContainer Int) 20 rfl).2.2.2.2.1⟩

/-- C26: for two iterators that refer to the same container, `operator!=` returns
the negation of `operator==`; for two iterators that refer to different
containers, `operator==` still returns the comparison of the indices while
`operator!=` throws `std::invalid_argument`.  So `!=` is the negation of `==`
exactly when the containers are the same. -/
theorem notEquals_negates_equals (a b : BaseIterator α) :
    (a.container = b.container → a.notEquals b = Except.ok (!a.equals b))
    ∧ (a.container ≠ b.container →
        a.notEquals b = Except.error Exception.invalid_argument
        ∧ a.equals b = decide (a.index = b.index))
    ∧ (a.notEquals b = Except.ok (!a.equals b) ↔ a.container = b.container) := by
  unfold BaseIterator.notEquals BaseIterator.equals
  by_cases h : a.container = b.container
  · simp [h, bne]
  · by_cases hi : a.index = b.index <;> simp [h, hi]

/-- Witness of C26: iterators of one container, and of two containers. -/
theorem notEquals_negates_equals_witness :
    ((⟨1, [7, 2, 9]⟩ : MyContainer Int).end_order).notEquals
        ((⟨1, [7, 2, 9]⟩ : MyContainer Int).begin_order)
      = Except.ok (!((⟨1, [7, 2, 9]⟩ : MyContainer Int).end_order).equals
          ((⟨1, [7, 2, 9]⟩ : MyContainer Int).begin_order))
    ∧ ((⟨1, [1]⟩ : MyContainer Int).begin_order).notEquals
        ((⟨2, [1]⟩ : MyContainer Int).begin_order)
      = Except.error Exception.invalid_argument :=
  ⟨(notEquals_negates_equals ((⟨1, [7, 2, 9]⟩ : MyContainer Int).end_order)
      ((⟨1, [7, 2, 9]⟩ : MyContainer Int).begin_order)).1 (by decide),
    ((notEquals_negates_equals ((⟨1, [1]⟩ : MyContainer Int).begin_order)
      ((⟨2, [1]⟩ : MyContainer Int).begin_order)).2.1 (by decide)).1⟩

/-- C27: for every container over a totally ordered element type, the order built
by `DescendingIterator` is the order built by `AscendingIterator` reversed, also
when values occur more than once. -/
theorem descending_eq_ascending_reverse [LinearOrder α] (c : MyContainer α)
    (isEnd isEnd2 : Bool) :
    (DescendingIterator c isEnd).order = (AscendingIterator c isEnd2).order.reverse
    ∧ (∀ addr : Nat,
        (DescendingIterator (⟨addr, [2, 1, 2, 3, 1]⟩ : MyContainer Int) false).order
          = [3, 2, 2, 1, 1]
        ∧ (AscendingIterator (⟨addr, [2, 1, 2, 3, 1]⟩ : MyContainer Int) false).order
          = [1, 1, 2, 2, 3]) := by
  refine ⟨?_, ?_⟩
  · rw [DescendingIterator_order, AscendingIterator_order, descending_eq_stdSort_reverse,
      ascending_eq_stdSort]
  · intro addr
    rw [DescendingIterator_order, AscendingIterator_order]
    constructor
    · show bubbleSort (fun a b : Int => decide (a < b)) [2, 1, 2, 3, 1] = [3, 2, 2, 1, 1]
      decide
    · show bubbleSort (fun a b : Int => decide (a > b)) [2, 1, 2, 3, 1] = [1, 1, 2, 2, 3]
      decide

/-- C28: the orders built by `AscendingIterator`, `DescendingIterator` and
`SideCrossIterator` depend on the values stored and their multiplicities only:
two containers whose element sequences are permutations of each other get equal
orders of each of these three kinds. -/
theorem rank_orders_of_perm [LinearOrder α] (c₁ c₂ : MyContainer α) (e₁ e₂ : Bool)
    (h : c₁.elements.Perm c₂.elements) :
    (AscendingIterator c₁ e₁).order = (AscendingIterator c₂ e₂).order
    ∧ (DescendingIterator c₁ e₁).order = (DescendingIterator c₂ e₂).order
    ∧ (SideCrossIterator c₁ e₁).order = (SideCrossIterator c₂ e₂).order := by
  have hs := stdSort_eq_of_perm h
  simp only [AscendingIterator_order, DescendingIterator_order, SideCrossIterator_order,
    ascending_eq_stdSort, descending_eq_stdSort_reverse, hs, and_self]

/-- Witness of C28: the containers `[3,1,2,1]` and `[1,2,1,3]`. -/
theorem rank_orders_of_perm_witness :
    ([3, 1, 2, 1] : List Int).Perm [1, 2, 1, 3]
    ∧ (SideCrossIterator (⟨0, [3, 1, 2, 1]⟩ : MyContainer Int) false).order
        = (SideCrossIterator (⟨1, [1, 2, 1, 3]⟩ : MyContainer Int) false).order :=
  ⟨by decide,
    (rank_orders_of_perm (⟨0, [3, 1, 2, 1]⟩ : MyContainer Int) ⟨1, [1, 2, 1, 3]⟩ false false
      (by decide)).2.2⟩

end Relations

/-! ## The index walks of `SideCrossIterator` and `MiddleOutOrder` -/

section WalkFacts

variable {α : Type}

theorem sideCrossTrace_inv (temp : List α) (N : Nat) (s : LoopState α) :
    s.left + s.right = N →
      ∀ t ∈ sideCrossTrace temp s, t.left + t.right = N ∧ t.left ≤ t.right := by
  induction s using sideCrossTrace.induct temp with
  | case1 s hguard ih =>
    intro hsum t ht
    rw [sideCrossTrace, if_pos hguard] at ht
    rcases List.mem_cons.mp ht with rfl | ht
    · exact ⟨hsum, hguard⟩
    · by_cases hlt : s.left + 1 ≤ s.right
      · refine ih ?_ t ht
        simp only [sideCrossBody, if_pos hlt]
        omega
      · have hbody : sideCrossTrace temp (sideCrossBody temp s) = [] := by
          rw [sideCrossTrace, if_neg]
          simp only [sideCrossBody, if_neg hlt]
          omega
        rw [hbody] at ht
        cases ht
  | case2 s hguard =>
    intro _ t ht
    rw [sideCrossTrace, if_neg hguard] at ht
    cases ht

theorem sideCrossTrace_length (temp : List α) (s : LoopState α) :
    s.left ≤ s.right + 1 → (sideCrossTrace temp s).length = (s.right + 2 - s.left) / 2 := by
  induction s using sideCrossTrace.induct temp with
  | case1 s hguard ih =>
    intro _
    rw [sideCrossTrace, if_pos hguard, List.length_cons]
    by_cases hlt : s.left + 1 ≤ s.right
    · rw [ih (by simp only [sideCrossBody, if_pos hlt]; omega)]
      simp only [sideCrossBody, if_pos hlt]
      omega
    · rw [ih (by simp only [sideCrossBody, if_neg hlt]; omega)]
      simp only [sideCrossBody, if_neg hlt]
      omega
  | case2 s hguard =>
    intro hle
    rw [sideCrossTrace, if_neg hguard, List.length_nil]
    omega

theorem SideCrossIterator_order_loop [LinearOrder α] (c : MyContainer α) (isEnd : Bool)
    (h : c.elements ≠ []) :
    (SideCrossIterator c isEnd).order
      = sideCrossLoop (stdSort c.elements) ⟨0, (stdSort c.elements).length - 1, []⟩ := by
  unfold SideCrossIterator
  have hne : c.elements.isEmpty = false := by
    cases hc : c.elements with
    | nil => exact absurd hc h
    | cons _ _ => rfl
  cases isEnd <;> simp [hne]

theorem middleOutTrace_inv (temp : List α) (m : Nat) (s : LoopState α) :
    s.left ≤ m →
      ∀ t ∈ middleOutTrace temp s, t.left ≤ m ∧ (t.left > 0 ∨ t.right < temp.length) := by
  induction s using middleOutTrace.induct temp with
  | case1 s hguard ih =>
    intro hle t ht
    rw [middleOutTrace, if_pos hguard] at ht
    rcases List.mem_cons.mp ht with rfl | ht
    · exact ⟨hle, hguard⟩
    · refine ih ?_ t ht
      simp only [middleOutBody]
      split <;> split <;> simp_all <;> omega
  | case2 s hguard =>
    intro _ t ht
    rw [middleOutTrace, if_neg hguard] at ht
    cases ht

theorem middleOutTrace_length (temp : List α) (s : LoopState α) :
    (middleOutTrace temp s).length ≤ s.left + (temp.length - s.right) := by
  induction s using middleOutTrace.induct temp with
  | case1 s hguard ih =>
    rw [middleOutTrace, if_pos hguard, List.length_cons]
    have hdec : (middleOutBody temp s).left + (temp.length - (middleOutBody temp s).right)
        < s.left + (temp.length - s.right) := by
      simp only [middleOutBody]
      split <;> split <;> simp_all <;> omega
    omega
  | case2 s hguard =>
    rw [middleOutTrace, if_neg hguard]
    exact Nat.zero_le _

theorem MiddleOutOrder_order_loop (c : MyContainer α) (isEnd : Bool)
    (h : c.elements ≠ []) :
    (MiddleOutOrder c isEnd).order
      = middleOutLoop c.elements
          ⟨if c.elements.length % 2 = 0 then c.elements.length / 2 - 1
            else c.elements.length / 2,
           (if c.elements.length % 2 = 0 then c.elements.length / 2 - 1
            else c.elements.length / 2) + 1,
           pushAt [] c.elements
             (if c.elements.length % 2 = 0 then c.elements.length / 2 - 1
              else c.elements.length / 2)⟩ := by
  unfold MiddleOutOrder
  have hne : c.elements.isEmpty = false := by
    cases hc : c.elements with
    | nil => exact absurd hc h
    | cons _ _ => rfl
  have hlen : c.elements.length ≠ 0 := fun h0 => h (List.length_eq_zero.mp h0)
  cases isEnd <;> simp [hne, hlen]

theorem pushAt_length_of_lt (order temp : List α) (i : Nat) (h : i < temp.length) :
    (pushAt order temp i).length = order.length + 1 := by
  rw [pushAt_of_getElem? (List.getElem?_eq_getElem h), List.length_append]
  rfl

theorem pushAt_length_le (order temp : List α) (i : Nat) :
    order.length ≤ (pushAt order temp i).length := by
  unfold pushAt
  split
  · rw [List.length_append]; exact Nat.le_add_right _ _
  · exact Nat.le_refl _

end WalkFacts

/-! ## Safety of the index walks -/

section WalkSafety

variable {α : Type}

/-- C29: on a non-empty container the `while` loop of `SideCrossIterator` is left
after `(n + 1) / 2` rounds (each round lowers `right + 1 - left`).  In every round
`left` and `right` are inside `temp`, so both reads are within bounds (and the
order built has `n` entries), and `right--` is executed only with
`1 <= left <= right` after `left++`, so `right` is at least 1 there: with the
arithmetic of a 64-bit `size_t` every round gives the same state. -/
theorem sideCross_loop_safe [LinearOrder α] (c : MyContainer α) (isEnd : Bool)
    (h : c.elements ≠ []) :
    (SideCrossIterator c isEnd).order
        = sideCrossLoop (stdSort c.elements) ⟨0, (stdSort c.elements).length - 1, []⟩
    ∧ (sideCrossTrace (stdSort c.elements) ⟨0, (stdSort c.elements).length - 1, []⟩).length
        = (c.size + 1) / 2
    ∧ (SideCrossIterator c isEnd).order.length = c.size
    ∧ ∀ s ∈ sideCrossTrace (stdSort c.elements) ⟨0, (stdSort c.elements).length - 1, []⟩,
        s.left ≤ s.right
        ∧ s.left < (stdSort c.elements).length
        ∧ s.right < (stdSort c.elements).length
        ∧ (s.left + 1 ≤ s.right → 1 ≤ s.left + 1 ∧ 1 ≤ s.right)
        ∧ (sideCrossBody (stdSort c.elements) s).right + 1
            - (sideCrossBody (stdSort c.elements) s).left < s.right + 1 - s.left
        ∧ ((stdSort c.elements).length < 2 ^ 64 →
            sideCrossBodyWrap (stdSort c.elements) s = sideCrossBody (stdSort c.elements) s) := by
  have hlen : (stdSort c.elements).length = c.size := stdSort_length _
  have hpos : 0 < c.size := List.length_pos.mpr h
  refine ⟨SideCrossIterator_order_loop c isEnd h, ?_, ?_, ?_⟩
  · rw [sideCrossTrace_length _ _ (by simp), hlen]
    show (c.size - 1 + 2 - 0) / 2 = (c.size + 1) / 2
    congr 1
    omega
  · rw [SideCrossIterator_order, crossOf_length, hlen]
  · intro s hs
    have hinv := sideCrossTrace_inv (stdSort c.elements) ((stdSort c.elements).length - 1)
      ⟨0, (stdSort c.elements).length - 1, []⟩ (by simp) s hs
    rw [hlen] at hinv ⊢
    obtain ⟨hsum, hguard⟩ := hinv
    refine ⟨hguard, by omega, by omega, fun hlt => ⟨by omega, by omega⟩, ?_, ?_⟩
    · simp only [sideCrossBody]
      split <;> simp_all <;> omega
    · intro hsize
      have h64 : (2 : Nat) ^ 64 = 18446744073709551616 := by norm_num
      have hl : (s.left + 1) % 2 ^ 64 = s.left + 1 := Nat.mod_eq_of_lt (by omega)
      simp only [sideCrossBodyWrap, sideCrossBody, hl]
      by_cases hlt : s.left + 1 ≤ s.right
      · have hr : (s.right + (2 ^ 64 - 1)) % 2 ^ 64 = s.right - 1 := by omega
        simp only [if_pos hlt, hr]
      · simp only [if_neg hlt]

/-- Witness of C29: the container `[3,1,4,2]`; the loop takes two rounds. -/
theorem sideCross_loop_safe_witness :
    ([3, 1, 4, 2] : List Int) ≠ []
    ∧ (sideCrossTrace (stdSort ([3, 1, 4, 2] : List Int))
        ⟨0, (stdSort ([3, 1, 4, 2] : List Int)).length - 1, []⟩).length = 2
    ∧ (SideCrossIterator (⟨0, [3, 1, 4, 2]⟩ : MyContainer Int) false).order.length = 4 :=
  ⟨by decide,
    (sideCross_loop_safe (⟨0, [3, 1, 4, 2]⟩ : MyContainer Int) false (by decide)).2.1,
    (sideCross_loop_safe (⟨0, [3, 1, 4, 2]⟩ : MyContainer Int) false (by decide)).2.2.1⟩

/-- C30: on a non-empty container of `n` elements, with `middle` as the constructor
of `MiddleOutOrder` computes it (`middle--` is executed only for an even `n`,
where `n / 2` is at least 1), `temp[middle]` is within bounds and the `while` loop
is left after at most `n - 1` rounds.  In every round the test of the loop
holds, `left--` is executed only with `left > 0` and reads inside `temp`, the
read `temp[right]` stands behind `right < n`, at least one element is appended,
`left + (n - right)` gets smaller, and with the arithmetic of a 64-bit `size_t`
the round gives the same state. -/
theorem middleOut_loop_bounded (c : MyContainer α) (isEnd : Bool) (middle : Nat)
    (h : c.elements ≠ [])
    (hmid : middle = if c.elements.length % 2 = 0 then c.elements.length / 2 - 1
      else c.elements.length / 2) :
    (MiddleOutOrder c isEnd).order
        = middleOutLoop c.elements ⟨middle, middle + 1, pushAt [] c.elements middle⟩
    ∧ (c.elements.length % 2 = 0 → 1 ≤ c.elements.length / 2)
    ∧ middle < c.size
    ∧ (middleOutTrace c.elements ⟨middle, middle + 1, pushAt [] c.elements middle⟩).length
        ≤ c.size - 1
    ∧ (MiddleOutOrder c isEnd).order.length = c.size
    ∧ ∀ s ∈ middleOutTrace c.elements ⟨middle, middle + 1, pushAt [] c.elements middle⟩,
        (s.left > 0 ∨ s.right < c.size)
        ∧ (s.left > 0 → s.left - 1 < c.size)
        ∧ s.order.length + 1 ≤ (middleOutBody c.elements s).order.length
        ∧ (middleOutBody c.elements s).left + (c.size - (middleOutBody c.elements s).right)
            < s.left + (c.size - s.right)
        ∧ (c.size < 2 ^ 64 →
            middleOutBodyWrap c.elements s = middleOutBody c.elements s) := by
  have hpos : 0 < c.elements.length := List.length_pos.mpr h
  have hmlt : middle < c.elements.length := by
    rw [hmid]; split <;> omega
  refine ⟨?_, fun he => by omega, hmlt, ?_, ?_, ?_⟩
  · rw [hmid]; exact MiddleOutOrder_order_loop c isEnd h
  · have hl := middleOutTrace_length c.elements
      ⟨middle, middle + 1, pushAt [] c.elements middle⟩
    simp only [MyContainer.size] at hl ⊢
    omega
  · rw [MiddleOutOrder_order]
    exact (middleOut_snapshot_perm c.elements).length_eq
  · intro s hs
    obtain ⟨hle, hguard⟩ := middleOutTrace_inv c.elements middle
      ⟨middle, middle + 1, pushAt [] c.elements middle⟩ (Nat.le_refl _) s hs
    simp only [MyContainer.size]
    refine ⟨hguard, fun _ => by omega, ?_, ?_, ?_⟩
    · by_cases hl : s.left > 0
      · have h1 := pushAt_length_of_lt s.order c.elements (s.left - 1) (by omega)
        by_cases hr : s.right < c.elements.length
        · have h2 := pushAt_length_le (pushAt s.order c.elements (s.left - 1)) c.elements
            s.right
          simp only [middleOutBody, if_pos hl, if_pos hr]
          omega
        · simp only [middleOutBody, if_pos hl, if_neg hr]
          omega
      · have hr : s.right < c.elements.length := by
          rcases hguard with hg | hg
          · exact absurd hg hl
          · exact hg
        have h2 := pushAt_length_of_lt s.order c.elements s.right hr
        simp only [middleOutBody, if_neg hl, if_pos hr]
        omega
    · simp only [middleOutBody]
      split <;> split <;> simp_all <;> omega
    · intro hsize
      have h64 : (2 : Nat) ^ 64 = 18446744073709551616 := by norm_num
      by_cases hl : s.left > 0
      · have hw : (s.left + (2 ^ 64 - 1)) % 2 ^ 64 = s.left - 1 := by omega
        by_cases hr : s.right < c.elements.length
        · have hw2 : (s.right + 1) % 2 ^ 64 = s.right + 1 := Nat.mod_eq_of_lt (by omega)
          simp only [middleOutBodyWrap, middleOutBody, if_pos hl, if_pos hr, hw, hw2]
        · simp only [middleOutBodyWrap, middleOutBody, if_pos hl, if_neg hr, hw]
      · by_cases hr : s.right < c.elements.length
        · have hw2 : (s.right + 1) % 2 ^ 64 = s.right + 1 := Nat.mod_eq_of_lt (by omega)
          simp only [middleOutBodyWrap, middleOutBody, if_neg hl, if_pos hr, hw2]
        · simp only [middleOutBodyWrap, middleOutBody, if_neg hl, if_neg hr]

/-- Witness of C30: the container `[7,2,5,1,9]`, whose middle index is 2. -/
theorem middleOut_loop_bounded_witness :
    ([7, 2, 5, 1, 9] : List Int) ≠ []
    ∧ (2 : Nat) = (if ([7, 2, 5, 1, 9] : List Int).length % 2 = 0
        then ([7, 2, 5, 1, 9] : List Int).length / 2 - 1
        else ([7, 2, 5, 1, 9] : List Int).length / 2)
    ∧ (middleOutTrace ([7, 2, 5, 1, 9] : List Int)
        ⟨2, 3, pushAt [] ([7, 2, 5, 1, 9] : List Int) 2⟩).length ≤ 4
    ∧ (MiddleOutOrder (⟨0, [7, 2, 5, 1, 9]⟩ : MyContainer Int) false).order.length = 5 :=
  ⟨by decide, by decide,
    (middleOut_loop_bounded (⟨0, [7, 2, 5, 1, 9]⟩ : MyContainer Int) false 2 (by decide)
      (by decide)).2.2.2.1,
    (middleOut_loop_bounded (⟨0, [7, 2, 5, 1, 9]⟩ : MyContainer Int) false 2 (by decide)
      (by decide)).2.2.2.2.1⟩

end WalkSafety

end ariel
